import Mathlib

/-!
Verification development for the weighted finite-state transducer library
(`fst.py`).  The Python code is embedded shallowly:

* symbols are `String`s (the code uses the string constants `EPSILON` and
  `STOP`); states are a type parameter, since the code uses integers,
  tuples, strings and pairs as states;
* a Python `Transition` object is the structure `Transition` below, whose
  equality/hash is over the three fields `(q, a, r)` exactly as in the code;
* Python sets and dict key sequences are modelled as duplicate-free lists in
  insertion order (`sinsert` appends a new element at the end, exactly like
  inserting a fresh key into a Python dict; Python dicts preserve insertion
  order, and set iteration order is arbitrary, which the list order
  refines);
* the `FST` object keeps four transition indices
  (`transitions_from/to/on_input/on_output`).  Every code path writes the
  same numeric value for a transition into all four dicts, so the embedding
  keeps a single weight table `w` (defaulting to `0`, the behaviour of
  `defaultdict(float)`) and one key sequence per index.  `t_from`, `t_to`,
  `t_onin`, `t_onout` are the transitions present in each of the four
  indices; `keys_onin`/`keys_onout` are the outer key sequences of the two
  symbol-keyed defaultdicts (outer keys matter because iteration and
  auto-vivification are observable there).  The inner dict of an index at a
  key is recovered by filtering, which preserves relative insertion order;
* float weights are modelled as rationals (`ℚ`), so sums are exact.
-/

def EPSILON : String := "ε"

def STOP : String := "</s>"

/-- A transition of a FST: source state `q`, symbol pair `a` (input, output),
target state `r`.  Equality is over exactly these three fields, as in the
Python `Transition.__eq__`/`__hash__`. -/
structure Transition (St : Type) where
  q : St
  a : String × String
  r : St
deriving DecidableEq

/-- Insert into a Python set / dict key sequence: a no-op when the element is
already present, otherwise appended at the end (insertion order). -/
def sinsert {α : Type} [DecidableEq α] (x : α) (l : List α) : List α :=
  if x ∈ l then l else l ++ [x]

/-- The FST store of `fst.py`: states, start/accept, alphabets, the four
transition indices and the (single, shared) weight table. -/
@[ext] structure FST (St : Type) where
  states : List St
  start : Option St
  accept : Option St
  input_alphabet : List String
  output_alphabet : List String
  t_from : List (Transition St)
  t_to : List (Transition St)
  t_onin : List (Transition St)
  t_onout : List (Transition St)
  keys_onin : List String
  keys_onout : List String
  w : Transition St → ℚ

set_option linter.unusedSectionVars false

set_option linter.unnecessarySimpa false

variable {St : Type} [DecidableEq St]

/-- Pointwise update of a weight table. -/
def wupd (w : Transition St → ℚ) (t : Transition St) (v : ℚ) :
    Transition St → ℚ :=
  fun u => if u = t then v else w u

/-- `FST.__init__`: everything empty, start/accept `None`, weights default 0. -/
def FST.empty : FST St :=
  ⟨[], none, none, [], [], [], [], [], [], [], [], fun _ => 0⟩

/-- `FST.add_state`. -/
def FST.add_state (m : FST St) (q : St) : FST St :=
  { m with states := sinsert q m.states }

/-- `FST.set_start`: adds the state, then sets `start`. -/
def FST.set_start (m : FST St) (q : St) : FST St :=
  { m.add_state q with start := some q }

/-- `FST.set_accept`: adds the state, then sets `accept`. -/
def FST.set_accept (m : FST St) (q : St) : FST St :=
  { m.add_state q with accept := some q }

/-- `FST.add_transition`: adds both endpoint states, extends both alphabets,
registers `t` in all four indices (under its own keys) and increments its
weight by `wt` (the `defaultdict` read-modify-write). -/
def FST.add_transition (m : FST St) (t : Transition St) (wt : ℚ) : FST St :=
  { states := sinsert t.r (sinsert t.q m.states)
    start := m.start
    accept := m.accept
    input_alphabet := sinsert t.a.1 m.input_alphabet
    output_alphabet := sinsert t.a.2 m.output_alphabet
    t_from := sinsert t m.t_from
    t_to := sinsert t m.t_to
    t_onin := sinsert t m.t_onin
    t_onout := sinsert t m.t_onout
    keys_onin := sinsert t.a.1 m.keys_onin
    keys_onout := sinsert t.a.2 m.keys_onout
    w := wupd m.w t (m.w t + wt) }

/-- `FST.reweight_transition`: overwrites the weight of `t` with `wt`.  Note
that, like the Python code, it writes `t` into all four index dicts but does
NOT touch `states` or the alphabets. -/
def FST.reweight_transition (m : FST St) (t : Transition St) (wt : ℚ) :
    FST St :=
  { m with
    t_from := sinsert t m.t_from
    t_to := sinsert t m.t_to
    t_onin := sinsert t m.t_onin
    t_onout := sinsert t m.t_onout
    keys_onin := sinsert t.a.1 m.keys_onin
    keys_onout := sinsert t.a.2 m.keys_onout
    w := wupd m.w t wt }

/-- Inner dict of `transitions_from` at state `q`, in insertion order. -/
def FST.fromList (m : FST St) (q : St) : List (Transition St) :=
  m.t_from.filter (fun t => t.q = q)

/-- Inner dict of `transitions_on_input` at symbol `a`, in insertion order. -/
def FST.oninList (m : FST St) (a : String) : List (Transition St) :=
  m.t_onin.filter (fun t => t.a.1 = a)

/-- Inner dict of `transitions_on_output` at symbol `b`, in insertion
order. -/
def FST.onoutList (m : FST St) (b : String) : List (Transition St) :=
  m.t_onout.filter (fun t => t.a.2 = b)

theorem wupd_self (w : Transition St → ℚ) (t : Transition St) (v : ℚ) :
    wupd w t v t = v := by
  simp [wupd]

theorem wupd_other (w : Transition St → ℚ) {t u : Transition St} (v : ℚ)
    (h : u ≠ t) : wupd w t v u = w u := by
  simp [wupd, h]

theorem mem_sinsert {α : Type} [DecidableEq α] {x y : α} {l : List α} :
    x ∈ sinsert y l ↔ x = y ∨ x ∈ l := by
  by_cases h : y ∈ l
  · simp only [sinsert, if_pos h]
    constructor
    · exact Or.inr
    · rintro (rfl | hx)
      · exact h
      · exact hx
  · simp [sinsert, h, or_comm]

theorem sinsert_of_mem {α : Type} [DecidableEq α] {y : α} {l : List α}
    (h : y ∈ l) : sinsert y l = l := by
  simp [sinsert, h]

theorem sinsert_nodup {α : Type} [DecidableEq α] {l : List α} (y : α)
    (h : l.Nodup) : (sinsert y l).Nodup := by
  by_cases hy : y ∈ l
  · simpa [sinsert, hy]
  · simp [sinsert, hy, List.nodup_append, h]

theorem FST.mem_fromList {m : FST St} {q : St} {t : Transition St} :
    t ∈ m.fromList q ↔ t ∈ m.t_from ∧ t.q = q := by
  simp [FST.fromList]

theorem FST.mem_oninList {m : FST St} {a : String} {t : Transition St} :
    t ∈ m.oninList a ↔ t ∈ m.t_onin ∧ t.a.1 = a := by
  simp [FST.oninList]

theorem FST.mem_onoutList {m : FST St} {b : String} {t : Transition St} :
    t ∈ m.onoutList b ↔ t ∈ m.t_onout ∧ t.a.2 = b := by
  simp [FST.onoutList]

theorem sinsert_idem {α : Type} [DecidableEq α] (x : α) (l : List α) :
    sinsert x (sinsert x l) = sinsert x l :=
  sinsert_of_mem (mem_sinsert.mpr (Or.inl rfl))

/-! ### The public mutation interface as an operation language

Used to state invariants over "every sequence of the public mutation
operations" (claim C7). -/

/-- One call to a public mutation method of `FST`. -/
inductive FSTOp (St : Type) where
  | add_state_op (q : St)
  | set_start_op (q : St)
  | set_accept_op (q : St)
  | add_transition_op (t : Transition St) (wt : ℚ)
  | reweight_op (t : Transition St) (wt : ℚ)

/-- Execute one public mutation call. -/
def applyOp (m : FST St) : FSTOp St → FST St
  | .add_state_op q => m.add_state q
  | .set_start_op q => m.set_start q
  | .set_accept_op q => m.set_accept q
  | .add_transition_op t wt => m.add_transition t wt
  | .reweight_op t wt => m.reweight_transition t wt

/-- Execute a sequence of public mutation calls. -/
def runOps (m : FST St) (ops : List (FSTOp St)) : FST St :=
  ops.foldl applyOp m

/-- Membership of a transition in at least one of the four index dicts. -/
def FST.inAnyIndex (m : FST St) (t : Transition St) : Prop :=
  t ∈ m.t_from ∨ t ∈ m.t_to ∨ t ∈ m.t_onin ∨ t ∈ m.t_onout

instance (m : FST St) (t : Transition St) : Decidable (m.inAnyIndex t) := by
  unfold FST.inAnyIndex
  infer_instance

/-- The guard under which one public mutation call keeps the store
well-formed: `reweight_transition` must only be applied to a transition
already registered in the indices (the way the estimator uses it); every
other call is unrestricted. -/
def opGuard (m : FST St) : FSTOp St → Bool
  | .reweight_op t _ => decide (m.inAnyIndex t)
  | _ => true

/-- A sequence of public mutation calls each of which satisfies `opGuard` at
the store state it executes in. -/
def validOps : FST St → List (FSTOp St) → Bool
  | _, [] => true
  | m, op :: rest => opGuard m op && validOps (applyOp m op) rest

/-- Input symbols of the transitions added (via `add_transition`) by a
sequence of operations, in order. -/
def addedInputs (ops : List (FSTOp St)) : List String :=
  ops.filterMap (fun op =>
    match op with
    | .add_transition_op t _ => some t.a.1
    | _ => none)

/-- Output symbols of the transitions added by a sequence of operations. -/
def addedOutputs (ops : List (FSTOp St)) : List String :=
  ops.filterMap (fun op =>
    match op with
    | .add_transition_op t _ => some t.a.2
    | _ => none)

theorem applyOp_preserves_endpoints {m : FST St} {op : FSTOp St}
    (hguard : opGuard m op = true)
    (hEnd : ∀ t, m.inAnyIndex t → t.q ∈ m.states ∧ t.r ∈ m.states) :
    ∀ t, (applyOp m op).inAnyIndex t →
      t.q ∈ (applyOp m op).states ∧ t.r ∈ (applyOp m op).states := by
  intro t ht
  cases op with
  | add_state_op q =>
      have := hEnd t ht
      exact ⟨mem_sinsert.mpr (Or.inr this.1), mem_sinsert.mpr (Or.inr this.2)⟩
  | set_start_op q =>
      have := hEnd t ht
      exact ⟨mem_sinsert.mpr (Or.inr this.1), mem_sinsert.mpr (Or.inr this.2)⟩
  | set_accept_op q =>
      have := hEnd t ht
      exact ⟨mem_sinsert.mpr (Or.inr this.1), mem_sinsert.mpr (Or.inr this.2)⟩
  | add_transition_op u wt =>
      have hcases : t = u ∨ m.inAnyIndex t := by
        rcases ht with h | h | h | h <;>
          rcases mem_sinsert.mp h with h | h <;>
          simp [FST.inAnyIndex, h]
      rcases hcases with rfl | h
      · constructor
        · exact mem_sinsert.mpr (Or.inr (mem_sinsert.mpr (Or.inl rfl)))
        · exact mem_sinsert.mpr (Or.inl rfl)
      · have := hEnd t h
        exact ⟨mem_sinsert.mpr (Or.inr (mem_sinsert.mpr (Or.inr this.1))),
               mem_sinsert.mpr (Or.inr (mem_sinsert.mpr (Or.inr this.2)))⟩
  | reweight_op u wt =>
      have hu : m.inAnyIndex u := of_decide_eq_true hguard
      have hcases : t = u ∨ m.inAnyIndex t := by
        rcases ht with h | h | h | h <;>
          rcases mem_sinsert.mp h with h | h <;>
          simp [FST.inAnyIndex, h]
      rcases hcases with rfl | h
      · exact hEnd t hu
      · exact hEnd t h

theorem runOps_preserves_endpoints {m : FST St} {ops : List (FSTOp St)}
    (hvalid : validOps m ops = true)
    (hEnd : ∀ t, m.inAnyIndex t → t.q ∈ m.states ∧ t.r ∈ m.states) :
    ∀ t, (runOps m ops).inAnyIndex t →
      t.q ∈ (runOps m ops).states ∧ t.r ∈ (runOps m ops).states := by
  induction ops generalizing m with
  | nil => exact hEnd
  | cons op rest ih =>
      rw [validOps, Bool.and_eq_true] at hvalid
      exact ih hvalid.2 (applyOp_preserves_endpoints hvalid.1 hEnd)

theorem runOps_input_alphabet {m : FST St} {ops : List (FSTOp St)}
    (a : String) :
    a ∈ (runOps m ops).input_alphabet ↔
      a ∈ m.input_alphabet ∨ a ∈ addedInputs ops := by
  induction ops generalizing m with
  | nil => simp [runOps, addedInputs]
  | cons op rest ih =>
      cases op with
      | add_state_op q =>
          simpa [runOps, addedInputs, applyOp, FST.add_state] using
            ih (m := m.add_state q)
      | set_start_op q =>
          simpa [runOps, addedInputs, applyOp, FST.set_start,
            FST.add_state] using ih (m := m.set_start q)
      | set_accept_op q =>
          simpa [runOps, addedInputs, applyOp, FST.set_accept,
            FST.add_state] using ih (m := m.set_accept q)
      | add_transition_op t wt =>
          have h := ih (m := m.add_transition t wt)
          simp only [runOps, List.foldl_cons, applyOp] at h ⊢
          rw [h]
          simp only [FST.add_transition, addedInputs, List.filterMap_cons,
            mem_sinsert, List.mem_cons]
          tauto
      | reweight_op t wt =>
          have h := ih (m := m.reweight_transition t wt)
          simp only [runOps, List.foldl_cons, applyOp] at h ⊢
          rw [h]
          simp [FST.reweight_transition, addedInputs]

theorem runOps_output_alphabet {m : FST St} {ops : List (FSTOp St)}
    (b : String) :
    b ∈ (runOps m ops).output_alphabet ↔
      b ∈ m.output_alphabet ∨ b ∈ addedOutputs ops := by
  induction ops generalizing m with
  | nil => simp [runOps, addedOutputs]
  | cons op rest ih =>
      cases op with
      | add_state_op q =>
          simpa [runOps, addedOutputs, applyOp, FST.add_state] using
            ih (m := m.add_state q)
      | set_start_op q =>
          simpa [runOps, addedOutputs, applyOp, FST.set_start,
            FST.add_state] using ih (m := m.set_start q)
      | set_accept_op q =>
          simpa [runOps, addedOutputs, applyOp, FST.set_accept,
            FST.add_state] using ih (m := m.set_accept q)
      | add_transition_op t wt =>
          have h := ih (m := m.add_transition t wt)
          simp only [runOps, List.foldl_cons, applyOp] at h ⊢
          rw [h]
          simp only [FST.add_transition, addedOutputs, List.filterMap_cons,
            mem_sinsert, List.mem_cons]
          tauto
      | reweight_op t wt =>
          have h := ih (m := m.reweight_transition t wt)
          simp only [runOps, List.foldl_cons, applyOp] at h ⊢
          rw [h]
          simp [FST.reweight_transition, addedOutputs]

/-! ### Claim C6: double addition of a transition -/

/-- A transition used in concrete examples for double addition. -/
def c6t : Transition ℕ := ⟨0, ("a", "b"), 1⟩

/-- C6 (counterexample).  The claim asserts that, for EVERY automaton,
adding transition `t` twice with weight deltas `w1` then `w2` leaves `t`
with weight `w1 + w2`.  On an automaton that already stores `t` with weight
1, adding with deltas 2 then 3 leaves weight 6, not 2 + 3 = 5, because
`add_transition` always accumulates onto the current weight. -/
theorem add_transition_twice_weight_counterexample :
    (((FST.empty.add_transition c6t 1).add_transition c6t 2).add_transition
        c6t 3).w c6t = 6 ∧ ¬ ((6 : ℚ) = 2 + 3) := by
  constructor
  · norm_num [FST.empty, FST.add_transition, wupd]
  · norm_num

/-- C6 (amended).  Adding `t` twice with deltas `w1` then `w2` leaves the
store structurally identical to a single addition of `t` (each index holds
`t` exactly once, endpoints and alphabet symbols are inserted at most once),
and increments `t`'s weight by `w1 + w2` — so the final weight is exactly
`w1 + w2` whenever `t`'s weight was previously 0 (in particular when `t` was
not present). -/
theorem add_transition_twice_merges (m : FST St) (t : Transition St)
    (w1 w2 : ℚ) :
    ((m.add_transition t w1).add_transition t w2).w t = m.w t + w1 + w2 ∧
    ((m.add_transition t w1).add_transition t w2).t_from
      = sinsert t m.t_from ∧
    ((m.add_transition t w1).add_transition t w2).t_to = sinsert t m.t_to ∧
    ((m.add_transition t w1).add_transition t w2).t_onin
      = sinsert t m.t_onin ∧
    ((m.add_transition t w1).add_transition t w2).t_onout
      = sinsert t m.t_onout ∧
    ((m.add_transition t w1).add_transition t w2).states
      = sinsert t.r (sinsert t.q m.states) ∧
    ((m.add_transition t w1).add_transition t w2).input_alphabet
      = sinsert t.a.1 m.input_alphabet ∧
    ((m.add_transition t w1).add_transition t w2).output_alphabet
      = sinsert t.a.2 m.output_alphabet := by
  have hq : t.q ∈ sinsert t.r (sinsert t.q m.states) :=
    mem_sinsert.mpr (Or.inr (mem_sinsert.mpr (Or.inl rfl)))
  have hr : t.r ∈ sinsert t.r (sinsert t.q m.states) :=
    mem_sinsert.mpr (Or.inl rfl)
  refine ⟨?_, ?_, ?_, ?_, ?_, ?_, ?_, ?_⟩
  · simp [FST.add_transition, wupd]
  · simp only [FST.add_transition, sinsert_idem]
  · simp [FST.add_transition, sinsert_idem]
  · simp [FST.add_transition, sinsert_idem]
  · simp [FST.add_transition, sinsert_idem]
  · simp [FST.add_transition, sinsert_of_mem hq, sinsert_of_mem hr]
  · simp [FST.add_transition, sinsert_idem]
  · simp [FST.add_transition, sinsert_idem]

/-! ### Claim C7: endpoint / alphabet invariants of the mutation interface -/

/-- C7 (counterexample).  The claim quantifies over every sequence of the
five public mutation operations, including `reweight_transition`.  But
`reweight_transition` on a never-added transition registers it in all four
indices without adding its endpoints to `states`: after the one-operation
sequence below the transition is in `transitions_from` while its source
state 0 is not a member of `states`. -/
theorem reweight_fresh_transition_counterexample :
    (⟨0, ("a", "b"), 1⟩ : Transition ℕ)
        ∈ (runOps (FST.empty : FST ℕ)
            [FSTOp.reweight_op ⟨0, ("a", "b"), 1⟩ 1]).t_from ∧
    (0 : ℕ) ∉ (runOps (FST.empty : FST ℕ)
            [FSTOp.reweight_op ⟨0, ("a", "b"), 1⟩ 1]).states := by
  decide

/-- C7 (amended).  For every sequence of public mutation operations starting
from the empty automaton in which `reweight_transition` is only applied to
transitions already present in the indices (which is how the estimator uses
it), every transition present in any of the four indices has both endpoint
states in `states`; and — for arbitrary valid sequences — the input/output
alphabets are exactly the projections of the input and output symbols of the
transitions added via `add_transition`. -/
theorem valid_mutation_sequences_invariants {St : Type} [DecidableEq St]
    (ops : List (FSTOp St)) (hvalid : validOps FST.empty ops = true) :
    (∀ t, (runOps (FST.empty : FST St) ops).inAnyIndex t →
        t.q ∈ (runOps (FST.empty : FST St) ops).states ∧
        t.r ∈ (runOps (FST.empty : FST St) ops).states) ∧
    (∀ a, a ∈ (runOps (FST.empty : FST St) ops).input_alphabet ↔
        a ∈ addedInputs ops) ∧
    (∀ b, b ∈ (runOps (FST.empty : FST St) ops).output_alphabet ↔
        b ∈ addedOutputs ops) := by
  refine ⟨?_, ?_, ?_⟩
  · refine runOps_preserves_endpoints hvalid ?_
    intro t ht
    simp [FST.empty, FST.inAnyIndex] at ht
  · intro a
    simpa [FST.empty] using runOps_input_alphabet (m := (FST.empty : FST St)) a
  · intro b
    simpa [FST.empty] using runOps_output_alphabet (m := (FST.empty : FST St)) b

/-- A concrete valid operation sequence for the C7 witness. -/
def c7ops : List (FSTOp ℕ) :=
  [FSTOp.set_start_op 0,
   FSTOp.add_transition_op ⟨0, ("a", "b"), 1⟩ 1,
   FSTOp.reweight_op ⟨0, ("a", "b"), 1⟩ 2,
   FSTOp.set_accept_op 1]

/-- C7 witness: the amended invariant instantiated at a concrete valid
sequence of mutations. -/
theorem valid_mutation_sequences_invariants_witness :
    validOps (FST.empty : FST ℕ) c7ops = true ∧
    (∀ t, (runOps (FST.empty : FST ℕ) c7ops).inAnyIndex t →
        t.q ∈ (runOps (FST.empty : FST ℕ) c7ops).states ∧
        t.r ∈ (runOps (FST.empty : FST ℕ) c7ops).states) :=
  ⟨by decide, (valid_mutation_sequences_invariants c7ops (by decide)).1⟩

/-! ### Claim C3: conditional normalization -/

/-- `FST.normalize_cond`: per state, first accumulate the smoothed per-input
masses `s` and the smoothed total `z` from the current weights, then rewrite
each outgoing transition's weight (skipping transitions whose smoothed
weight is 0): epsilon-input transitions get `(wt+add)/z`, others get
`(wt+add)/s(input) * (1 - s(EPSILON)/z)`.  Division is total on `ℚ`
(Python would raise `ZeroDivisionError` on a zero divisor; no claim
exercises that path). -/
def FST.normalize_cond (m : FST St) (add : ℚ) : FST St :=
  m.states.foldl (fun m0 q =>
    let ts := m0.fromList q
    let s : String → ℚ := fun b =>
      ((ts.filter (fun t => t.a.1 = b)).map (fun t => m0.w t + add)).sum
    let z : ℚ := (ts.map (fun t => m0.w t + add)).sum
    ts.foldl (fun m1 t =>
      if m0.w t + add = 0 then m1
      else if t.a.1 = EPSILON then
        m1.reweight_transition t ((m0.w t + add) / z)
      else
        m1.reweight_transition t
          ((m0.w t + add) / s t.a.1 * (1 - s EPSILON / z))) m0) m

/-- The `a:a` weight-3 transition of the C3 example. -/
def c3ta : Transition ℕ := ⟨0, ("a", "a"), 1⟩

/-- The `b:b` weight-1 transition of the C3 example. -/
def c3tb : Transition ℕ := ⟨0, ("b", "b"), 2⟩

/-- The C3 example automaton: one state with outgoing `a:a/3` and `b:b/1`. -/
def c3m : FST ℕ := (FST.empty.add_transition c3ta 3).add_transition c3tb 1

/-- C3 (counterexample).  On the state with outgoing `(a:a, weight 3)` and
`(b:b, weight 1)`, `normalize_cond(add=0)` sets the `a:a` weight to
`3/3 * (1 - 0/4) = 1`, not `0.75`: `normalize_cond` builds a conditional
distribution of output given input, and each input symbol here has a single
output (the claimed `0.75/0.25` are what `normalize_joint` would give). -/
theorem normalize_cond_example_counterexample :
    (c3m.normalize_cond 0).w c3ta = 1 ∧ ¬ ((1 : ℚ) = 3 / 4) := by
  constructor
  · norm_num +decide [c3m, c3ta, c3tb, FST.normalize_cond, FST.empty,
      FST.add_transition, FST.fromList, sinsert, wupd, EPSILON,
      FST.reweight_transition]
  · norm_num

/-- C3 (amended).  On that same state, `normalize_cond(add=0)` yields weight
1 for the `a:a` transition and weight 1 for the `b:b` transition. -/
theorem normalize_cond_example_eval :
    (c3m.normalize_cond 0).w c3ta = 1 ∧ (c3m.normalize_cond 0).w c3tb = 1 := by
  constructor
  · norm_num +decide [c3m, c3ta, c3tb, FST.normalize_cond, FST.empty,
      FST.add_transition, FST.fromList, sinsert, wupd, EPSILON,
      FST.reweight_transition]
  · norm_num +decide [c3m, c3ta, c3tb, FST.normalize_cond, FST.empty,
      FST.add_transition, FST.fromList, sinsert, wupd, EPSILON,
      FST.reweight_transition]

/-! ### `FST.train_joint` (fst.py lines 82-99)

The walk phase counts transition usages into a local counter; the
renormalization phase then rewrites, per state, every outgoing weight to
`count(t) / z` where `z` is the CURRENT total outgoing weight of the state
(`sum(self.transitions_from[q].values())`).  A state with a nonempty
outgoing dict whose weights sum to 0 makes Python raise `ZeroDivisionError`,
which the embedding models as an explicit error result.  Both error results
carry the automaton as it stands when the exception is raised. -/

/-- Result of a `train_joint` call: normal return, `ValueError` ("training
string is not in language") during the walk phase, or `ZeroDivisionError`
during the renormalization phase. -/
inductive TrainResult (St : Type) where
  | ok (m : FST St)
  | errNotInLanguage (m : FST St)
  | errDivByZero (m : FST St)

/-- Whether a `train_joint` call ended in `ZeroDivisionError`. -/
def TrainResult.isDivByZero : TrainResult St → Bool
  | .errDivByZero _ => true
  | _ => false

/-- The trained weight of a transition, when training returned normally. -/
def TrainResult.okWeight : TrainResult St → Transition St → Option ℚ
  | .ok m, t => some (m.w t)
  | _, _ => none

/-- `transitions_from` read at the walk's current position; the position is
an `Option` because `self.start` may be `None`, in which case the
defaultdict lookup yields an empty dict. -/
def FST.fromListPos (m : FST St) : Option St → List (Transition St)
  | none => []
  | some q => m.fromList q

/-- One training sequence walked from position `q`: at each symbol, take the
first outgoing transition whose input symbol matches (the `for ... break`
scan), collecting the used transitions; `none` models the `ValueError`. -/
def walkLine (m : FST St) : Option St → List String →
    Option (List (Transition St))
  | _, [] => some []
  | q, a :: rest =>
    match (m.fromListPos q).find? (fun t => t.a.1 = a) with
    | none => none
    | some t => (walkLine m (some t.r) rest).map (fun tr => t :: tr)

/-- All training sequences walked in order (each with `STOP` appended), the
used transitions concatenated. -/
def walkAll (m : FST St) : List (List String) → Option (List (Transition St))
  | [] => some []
  | line :: rest =>
    match walkLine m m.start (line ++ [STOP]) with
    | none => none
    | some tr => (walkAll m rest).map (fun tr2 => tr ++ tr2)

/-- The renormalization loop of `train_joint`: for each state `q` in the
given order, read the outgoing dict and its current weight total `z`, then
replace every outgoing weight by `count/z`.  A state with outgoing
transitions and `z = 0` raises `ZeroDivisionError` at the first division; a
state with an empty outgoing dict performs no division. -/
def renormAll (cnt : Transition St → ℕ) : FST St → List St → TrainResult St
  | m, [] => .ok m
  | m, q :: rest =>
    let ts := m.fromList q
    let z : ℚ := (ts.map m.w).sum
    if ts.isEmpty then renormAll cnt m rest
    else if z = 0 then .errDivByZero m
    else
      renormAll cnt
        (ts.foldl (fun m1 t => m1.reweight_transition t ((cnt t : ℚ) / z)) m)
        rest

/-- `FST.train_joint`: walk phase (accumulating usage counts in a local
counter), then renormalization phase over `self.states`. -/
def FST.train_joint (m : FST St) (data : List (List String)) :
    TrainResult St :=
  match walkAll m data with
  | none => .errNotInLanguage m
  | some used => renormAll (fun t => used.count t) m m.states

theorem reweightFold_t_from {l : List (Transition St)} {m : FST St}
    (f : Transition St → ℚ) (hsub : ∀ t ∈ l, t ∈ m.t_from) :
    (l.foldl (fun m1 t => m1.reweight_transition t (f t)) m).t_from
      = m.t_from := by
  induction l generalizing m with
  | nil => rfl
  | cons t rest ih =>
      have ht : t ∈ m.t_from := hsub t (List.mem_cons_self t rest)
      have hstep : (m.reweight_transition t (f t)).t_from = m.t_from := by
        simp [FST.reweight_transition, sinsert_of_mem ht]
      rw [List.foldl_cons, ih (fun u hu => by
        rw [hstep]
        exact hsub u (List.mem_cons_of_mem t hu)), hstep]

theorem reweightFold_w_of_not_mem {l : List (Transition St)} {m : FST St}
    (f : Transition St → ℚ) {t : Transition St} (ht : t ∉ l) :
    (l.foldl (fun m1 u => m1.reweight_transition u (f u)) m).w t = m.w t := by
  induction l generalizing m with
  | nil => rfl
  | cons u rest ih =>
      have hne : t ≠ u := fun h => ht (h ▸ List.mem_cons_self u rest)
      rw [List.foldl_cons, ih (fun h => ht (List.mem_cons_of_mem u h))]
      simp [FST.reweight_transition, wupd, hne]

theorem reweightFold_w_of_mem {l : List (Transition St)} {m : FST St}
    (f : Transition St → ℚ) (hl : l.Nodup) {t : Transition St} (ht : t ∈ l) :
    (l.foldl (fun m1 u => m1.reweight_transition u (f u)) m).w t = f t := by
  induction l generalizing m with
  | nil => cases ht
  | cons u rest ih =>
      rcases List.mem_cons.mp ht with rfl | hmem
      · have hnotin : t ∉ rest := (List.nodup_cons.mp hl).1
        rw [List.foldl_cons, reweightFold_w_of_not_mem f hnotin]
        simp [FST.reweight_transition, wupd]
      · exact List.foldl_cons _ _ ▸ ih (List.nodup_cons.mp hl).2 hmem

theorem FST.fromList_subset {m : FST St} {q : St} :
    ∀ t ∈ m.fromList q, t ∈ m.t_from :=
  fun _ ht => (FST.mem_fromList.mp ht).1

theorem FST.fromList_nodup {m : FST St} (hndf : m.t_from.Nodup) (q : St) :
    (m.fromList q).Nodup :=
  hndf.filter _

theorem FST.mem_fromList_self {m : FST St} {t : Transition St}
    (ht : t ∈ m.t_from) : t ∈ m.fromList t.q :=
  FST.mem_fromList.mpr ⟨ht, rfl⟩

theorem renormAll_ok_char {cnt : Transition St → ℕ} :
    ∀ {l : List St} {m m' : FST St}, l.Nodup → m.t_from.Nodup →
      renormAll cnt m l = .ok m' →
      (∀ t, t.q ∈ l → t ∈ m.t_from →
        m'.w t = (cnt t : ℚ) / ((m.fromList t.q).map m.w).sum) ∧
      (∀ t, t.q ∉ l → m'.w t = m.w t) ∧
      m'.t_from = m.t_from := by
  intro l
  induction l with
  | nil =>
      intro m m' _ _ hok
      simp only [renormAll] at hok
      cases hok
      exact ⟨fun t ht _ => absurd ht (List.not_mem_nil _),
             fun t _ => rfl, rfl⟩
  | cons q rest ih =>
      intro m m' hnd hndf hok
      have hqrest : q ∉ rest := (List.nodup_cons.mp hnd).1
      have hrest : rest.Nodup := (List.nodup_cons.mp hnd).2
      simp only [renormAll] at hok
      by_cases hempty : (m.fromList q).isEmpty
      · rw [if_pos hempty] at hok
        have hnil : m.fromList q = [] := List.isEmpty_iff.mp hempty
        obtain ⟨A, B, C⟩ := ih hrest hndf hok
        refine ⟨?_, ?_, C⟩
        · intro t ht htf
          rcases List.mem_cons.mp ht with rfl1 | hmem
          · exfalso
            have : t ∈ m.fromList t.q := FST.mem_fromList_self htf
            rw [rfl1, hnil] at this
            exact List.not_mem_nil _ this
          · exact A t hmem htf
        · intro t ht
          exact B t (fun h => ht (List.mem_cons_of_mem q h))
      · rw [if_neg hempty] at hok
        by_cases hz : ((m.fromList q).map m.w).sum = 0
        · rw [if_pos hz] at hok
          cases hok
        · rw [if_neg hz] at hok
          set mn := ((m.fromList q).foldl
            (fun m1 t => m1.reweight_transition t ((cnt t : ℚ) /
              ((m.fromList q).map m.w).sum)) m) with hmn
          have hfromeq : mn.t_from = m.t_from :=
            reweightFold_t_from _ FST.fromList_subset
          have hfromList : ∀ p, mn.fromList p = m.fromList p := by
            intro p
            unfold FST.fromList
            rw [hfromeq]
          have hw_other : ∀ t, t ∉ m.fromList q → mn.w t = m.w t :=
            fun t ht => reweightFold_w_of_not_mem _ ht
          have hw_mem : ∀ t ∈ m.fromList q,
              mn.w t = (cnt t : ℚ) / ((m.fromList q).map m.w).sum :=
            fun t ht => reweightFold_w_of_mem _ (FST.fromList_nodup hndf q) ht
          obtain ⟨A, B, C⟩ := ih hrest (hfromeq ▸ hndf) hok
          refine ⟨?_, ?_, C.trans hfromeq⟩
          · intro t ht htf
            rcases List.mem_cons.mp ht with rfl1 | hmem
            · have hts : t ∈ m.fromList q := rfl1 ▸ FST.mem_fromList_self htf
              have h1 : m'.w t = mn.w t := B t (rfl1 ▸ hqrest)
              rw [h1, hw_mem t hts, rfl1]
            · have htq : t.q ≠ q := fun h => hqrest (h ▸ hmem)
              have h1 := A t hmem (hfromeq ▸ htf)
              rw [hfromList] at h1
              rw [h1]
              congr 1
              refine congrArg _ (List.map_congr_left ?_)
              intro u hu
              refine hw_other u ?_
              intro humem
              exact htq ((FST.mem_fromList.mp humem).2.symm.trans
                (FST.mem_fromList.mp hu).2).symm
          · intro t ht
            have h1 : m'.w t = mn.w t :=
              B t (fun h => ht (List.mem_cons_of_mem q h))
            rw [h1]
            refine hw_other t ?_
            intro hmem
            exact ht ((FST.mem_fromList.mp hmem).2 ▸ List.mem_cons_self q rest)

theorem renormAll_isDiv_char {cnt : Transition St → ℕ} :
    ∀ {l : List St} {m : FST St}, l.Nodup → m.t_from.Nodup →
      ((renormAll cnt m l).isDivByZero = true ↔
        ∃ q ∈ l, m.fromList q ≠ [] ∧ ((m.fromList q).map m.w).sum = 0) := by
  intro l
  induction l with
  | nil =>
      intro m _ _
      simp [renormAll, TrainResult.isDivByZero]
  | cons q rest ih =>
      intro m hnd hndf
      have hqrest : q ∉ rest := (List.nodup_cons.mp hnd).1
      have hrest : rest.Nodup := (List.nodup_cons.mp hnd).2
      simp only [renormAll]
      by_cases hempty : (m.fromList q).isEmpty
      · rw [if_pos hempty]
        have hnil : m.fromList q = [] := List.isEmpty_iff.mp hempty
        rw [ih hrest hndf]
        constructor
        · rintro ⟨p, hp, hne, hz⟩
          exact ⟨p, List.mem_cons_of_mem q hp, hne, hz⟩
        · rintro ⟨p, hp, hne, hz⟩
          rcases List.mem_cons.mp hp with rfl1 | hmem
          · exact absurd (rfl1 ▸ hnil) hne
          · exact ⟨p, hmem, hne, hz⟩
      · rw [if_neg hempty]
        have hne : m.fromList q ≠ [] := by
          intro h
          rw [h] at hempty
          exact hempty rfl
        by_cases hz : ((m.fromList q).map m.w).sum = 0
        · rw [if_pos hz]
          simp only [TrainResult.isDivByZero, true_iff]
          exact ⟨q, List.mem_cons_self q rest, hne, hz⟩
        · rw [if_neg hz]
          set mn := ((m.fromList q).foldl
            (fun m1 t => m1.reweight_transition t ((cnt t : ℚ) /
              ((m.fromList q).map m.w).sum)) m) with hmn
          have hfromeq : mn.t_from = m.t_from :=
            reweightFold_t_from _ FST.fromList_subset
          have hfromList : ∀ p, mn.fromList p = m.fromList p := by
            intro p
            unfold FST.fromList
            rw [hfromeq]
          have hw_other : ∀ t, t ∉ m.fromList q → mn.w t = m.w t :=
            fun t ht => reweightFold_w_of_not_mem _ ht
          rw [ih hrest (hfromeq ▸ hndf)]
          have hmapeq : ∀ p ∈ rest, (mn.fromList p).map mn.w
              = (m.fromList p).map m.w := by
            intro p hp
            rw [hfromList]
            refine List.map_congr_left ?_
            intro u hu
            refine hw_other u ?_
            intro humem
            have h1 := (FST.mem_fromList.mp humem).2
            have h2 := (FST.mem_fromList.mp hu).2
            exact hqrest ((h1.symm.trans h2) ▸ hp)
          constructor
          · rintro ⟨p, hp, hne2, hz2⟩
            rw [hfromList] at hne2
            rw [hmapeq p hp] at hz2
            exact ⟨p, List.mem_cons_of_mem q hp, hne2, hz2⟩
          · rintro ⟨p, hp, hne2, hz2⟩
            rcases List.mem_cons.mp hp with rfl1 | hmem
            · exact absurd (rfl1 ▸ hz2) hz
            · refine ⟨p, hmem, ?_, ?_⟩
              · rw [hfromList]
                exact hne2
              · rw [hmapeq p hmem]
                exact hz2

theorem renormAll_ne_notInLanguage {cnt : Transition St → ℕ} :
    ∀ {l : List St} {m m'' : FST St},
      renormAll cnt m l ≠ .errNotInLanguage m'' := by
  intro l
  induction l with
  | nil =>
      intro m m'' h
      simp only [renormAll] at h
      cases h
  | cons q rest ih =>
      intro m m'' h
      simp only [renormAll] at h
      by_cases hempty : (m.fromList q).isEmpty
      · rw [if_pos hempty] at h
        exact ih h
      · rw [if_neg hempty] at h
        by_cases hz : ((m.fromList q).map m.w).sum = 0
        · rw [if_pos hz] at h
          cases h
        · rw [if_neg hz] at h
          exact ih h

/-- Shared helper: on normal return, `train_joint` has set every outgoing
weight of every state to the walk count of the transition divided by the
PRE-CALL total outgoing weight of its source state. -/
theorem train_joint_ok_weight_formula {m : FST St} {data : List (List String)}
    {used : List (Transition St)} {m' : FST St}
    (hnd : m.states.Nodup) (hndf : m.t_from.Nodup)
    (hw : walkAll m data = some used)
    (hok : FST.train_joint m data = .ok m') :
    ∀ q ∈ m.states, ∀ t ∈ m.fromList q,
      m'.w t = ((used.count t : ℕ) : ℚ) / ((m.fromList q).map m.w).sum := by
  intro q hq t ht
  unfold FST.train_joint at hok
  rw [hw] at hok
  obtain ⟨A, _, _⟩ := renormAll_ok_char hnd hndf hok
  have hq2 : t.q ∈ m.states := (FST.mem_fromList.mp ht).2 ▸ hq
  have h1 := A t hq2 (FST.mem_fromList.mp ht).1
  rw [h1, (FST.mem_fromList.mp ht).2]

/-! ### Claim C10: walk failure leaves weights untouched -/

/-- C10.  If `train_joint` raises the "training string is not in language"
error, the automaton is exactly as it was before the call (in particular no
transition weight has been modified): counts are accumulated in a local
counter and reweighting only starts after every sequence has been walked. -/
theorem train_joint_walk_failure_frame (m : FST St)
    (data : List (List String)) (m' : FST St)
    (h : FST.train_joint m data = .errNotInLanguage m') :
    m' = m ∧ m'.w = m.w := by
  unfold FST.train_joint at h
  cases hw : walkAll m data with
  | none =>
      rw [hw] at h
      injection h with hh
      exact ⟨hh.symm, hh ▸ rfl⟩
  | some used =>
      rw [hw] at h
      exact absurd h renormAll_ne_notInLanguage

/-- The C10 witness automaton: a start state with no transitions, so the
very first walked symbol (`STOP`) has no match. -/
def c10m : FST ℕ := FST.empty.set_start 0

/-- C10 witness: a concrete failing walk, with the frame conclusion. -/
theorem train_joint_walk_failure_frame_witness :
    FST.train_joint c10m [[]] = TrainResult.errNotInLanguage c10m ∧
      c10m.w = c10m.w :=
  ⟨rfl, (train_joint_walk_failure_frame c10m [[]] c10m rfl).2⟩

/-! ### Claim C8: divisions by zero in `train_joint` -/

/-- Transition used by the C8 counterexample: `STOP` loop carrying weight 1
from the start state. -/
def c8t1 : Transition ℕ := ⟨0, ("</s>", "</s>"), 1⟩

/-- Transition used by the C8 counterexample: a transition whose weight is 0
(added with weight delta 0) out of an otherwise unused state. -/
def c8t3 : Transition ℕ := ⟨2, ("x", "x"), 2⟩

/-- The C8 counterexample automaton. -/
def c8m : FST ℕ :=
  ((FST.empty.set_start 0).add_transition c8t1 1).add_transition c8t3 0

/-- C8 (counterexample).  The claim says `train_joint` never divides by
zero.  But the renormalization loop divides by the CURRENT total outgoing
weight of each state with a nonempty outgoing dict, with no guard: on an
automaton with a weight-0 transition out of state 2, training on the single
empty sequence (whose walk succeeds through the `STOP` transition) reaches
state 2 with `z = 0` and raises `ZeroDivisionError`. -/
theorem train_joint_zero_division_counterexample :
    (FST.train_joint c8m [[]]).isDivByZero = true := by
  norm_num +decide [FST.train_joint, walkAll, walkLine, renormAll,
    FST.fromListPos, FST.fromList, c8m, c8t1, c8t3, FST.empty, FST.set_start,
    FST.add_state, FST.add_transition, FST.reweight_transition, sinsert,
    wupd, STOP, TrainResult.isDivByZero, List.find?, List.count,
    List.countP]

/-- C8 (amended).  Assuming all walks succeed, `train_joint` raises
`ZeroDivisionError` if and only if some state has a nonempty outgoing dict
whose current weights sum to 0 (a state with an empty outgoing dict is
skipped without dividing); and on normal return, every outgoing transition
whose walk count is 0 ends with weight 0. -/
theorem train_joint_zero_division_characterization (m : FST St)
    (data : List (List String)) (used : List (Transition St))
    (hnd : m.states.Nodup) (hndf : m.t_from.Nodup)
    (hw : walkAll m data = some used) :
    ((FST.train_joint m data).isDivByZero = true ↔
      ∃ q ∈ m.states, m.fromList q ≠ [] ∧
        ((m.fromList q).map m.w).sum = 0) ∧
    (∀ m', FST.train_joint m data = .ok m' →
      ∀ q ∈ m.states, ∀ t ∈ m.fromList q, used.count t = 0 → m'.w t = 0) := by
  constructor
  · unfold FST.train_joint
    rw [hw]
    exact renormAll_isDiv_char hnd hndf
  · intro m' hok q hq t ht hcnt
    have h1 := train_joint_ok_weight_formula hnd hndf hw hok q hq t ht
    rw [h1, hcnt]
    simp

/-- The C8 witness automaton: start state with a weight-1 `STOP` loop. -/
def c8wm : FST ℕ := (FST.empty.set_start 0).add_transition c8t1 1

/-- C8 witness: the characterization applied to a concrete automaton and
corpus whose walk succeeds. -/
theorem train_joint_zero_division_characterization_witness :
    walkAll c8wm [[]] = some [c8t1] ∧
    ((FST.train_joint c8wm [[]]).isDivByZero = true ↔
      ∃ q ∈ c8wm.states, c8wm.fromList q ≠ [] ∧
        ((c8wm.fromList q).map c8wm.w).sum = 0) :=
  ⟨by decide,
   (train_joint_zero_division_characterization c8wm [[]] [c8t1]
     (by decide) (by decide) (by decide)).1⟩

/-! ### Claim C2 (counterexample part): `train_joint` divides by the current
weight totals, not by the count totals -/

/-- The `a:a` transition of the C2 counterexample, added with weight 3. -/
def c2t1 : Transition ℕ := ⟨0, ("a", "a"), 0⟩

/-- The `STOP` transition of the C2 counterexample, added with weight 1. -/
def c2t2 : Transition ℕ := ⟨0, ("</s>", "</s>"), 1⟩

/-- The C2 counterexample automaton: state 0 has outgoing `a:a/3` (a loop)
and `STOP:STOP/1`. -/
def c2m : FST ℕ :=
  ((FST.empty.set_start 0).add_transition c2t1 3).add_transition c2t2 1

/-- C2 (counterexample).  Training on the corpus `[["a"]]` walks each of the
two transitions of state 0 exactly once, so the claimed count ratio for the
`a:a` transition is `1/(1+1) = 1/2`.  The code instead divides by
`z = sum(transitions_from[q].values()) = 3 + 1`, the PRE-CALL weight total,
giving `1/4`. -/
theorem train_joint_count_ratio_counterexample :
    (FST.train_joint c2m [["a"]]).okWeight c2t1 = some (1 / 4) ∧
    ¬ ((1 / 4 : ℚ) = 1 / 2) := by
  constructor
  · norm_num +decide [FST.train_joint, walkAll, walkLine, renormAll,
      FST.fromListPos, FST.fromList, c2m, c2t1, c2t2, FST.empty,
      FST.set_start, FST.add_state, FST.add_transition,
      FST.reweight_transition, sinsert, wupd, STOP,
      TrainResult.okWeight, List.find?, List.count_cons, List.count_nil]
  · norm_num

/-! ### Composition (fst.py lines 188-265)

Composed states are pairs; since Python freely pairs `m1.start`/`m2.start`
(which may be `None`) with ordinary states, the composed state type is
`Option St1 × Option St2`, ordinary states being wrapped in `some`.

Each emitted transition carries its `composed_from` origin.  When several
emissions share one `(from, symbols, to)` identity, `add_transition` merges
them: the weight accumulates, but the dicts keep the FIRST key object — so
the stored `composed_from` is the first emission's origin, and later origins
are dropped.  `emitStep` models exactly that. -/

/-- An emission of the composition loops: the composed transition, its
`composed_from` origin pair, and its weight contribution. -/
structure Emit (St1 St2 : Type) where
  t : Transition (Option St1 × Option St2)
  org : Option (Transition St1) × Option (Transition St2)
  wt : ℚ
deriving DecidableEq

/-- A composed automaton: the store plus the `composed_from` attribute of
each stored transition key object. -/
structure Composed (St1 St2 : Type) where
  m : FST (Option St1 × Option St2)
  prov : Transition (Option St1 × Option St2) →
    Option (Option (Transition St1) × Option (Transition St2))

variable {St1 St2 : Type} [DecidableEq St1] [DecidableEq St2]

/-- Composed transition for a matched pair `(t1, t2)`:
`(t1.q,t2.q) --t1.a[0]:t2.a[1]--> (t1.r,t2.r)`. -/
def pairTr (t1 : Transition St1) (t2 : Transition St2) :
    Transition (Option St1 × Option St2) :=
  ⟨(some t1.q, some t2.q), (t1.a.1, t2.a.2), (some t1.r, some t2.r)⟩

/-- Composed transition when `m1` deletes (`t1` outputs epsilon) while `m2`
holds still at `q2`. -/
def delTr (t1 : Transition St1) (q2 : St2) :
    Transition (Option St1 × Option St2) :=
  ⟨(some t1.q, some q2), (t1.a.1, EPSILON), (some t1.r, some q2)⟩

/-- Composed transition when `m2` inserts (`t2` consumes epsilon) while `m1`
holds still at `q1`. -/
def insTr (q1 : St1) (t2 : Transition St2) :
    Transition (Option St1 × Option St2) :=
  ⟨(some q1, some t2.q), (EPSILON, t2.a.2), (some q1, some t2.r)⟩

/-- Emission for a matched pair, with weight `wt1 * wt2`. -/
def pairEmit (m1 : FST St1) (m2 : FST St2) (t1 : Transition St1)
    (t2 : Transition St2) : Emit St1 St2 :=
  ⟨pairTr t1 t2, (some t1, some t2), m1.w t1 * m2.w t2⟩

/-- Emission for a deletion, with weight `wt1`. -/
def delEmit (m1 : FST St1) (t1 : Transition St1) (q2 : St2) : Emit St1 St2 :=
  ⟨delTr t1 q2, (some t1, none), m1.w t1⟩

/-- Emission for an insertion, with weight `wt2`. -/
def insEmit (m2 : FST St2) (q1 : St1) (t2 : Transition St2) : Emit St1 St2 :=
  ⟨insTr q1 t2, (none, some t2), m2.w t2⟩

/-- Pointwise update of a provenance table. -/
def provUpd (p : Transition (Option St1 × Option St2) →
      Option (Option (Transition St1) × Option (Transition St2)))
    (t : Transition (Option St1 × Option St2))
    (o : Option (Transition St1) × Option (Transition St2)) :
    Transition (Option St1 × Option St2) →
      Option (Option (Transition St1) × Option (Transition St2)) :=
  fun u => if u = t then some o else p u

/-- One `m.add_transition(t, wt)` call during composition: the weight
accumulates, and `composed_from` is retained only if `t` is a fresh key
(dicts keep the first key object). -/
def emitStep (c : Composed St1 St2) (e : Emit St1 St2) : Composed St1 St2 :=
  { m := c.m.add_transition e.t e.wt
    prov := if e.t ∈ c.m.t_onin then c.prov else provUpd c.prov e.t e.org }

/-- Body of `compose_left`'s inner loop for one transition `t1` of `m1`:
either the matched pairs against `m2.transitions_on_input.get(t1.a[1])`, or
(when `t1` outputs epsilon) one deletion per state of `m2`. -/
def branchL (m1 : FST St1) (m2 : FST St2) (t1 : Transition St1) :
    List (Emit St1 St2) :=
  if t1.a.2 ≠ EPSILON then
    (m2.oninList t1.a.2).map (fun t2 => pairEmit m1 m2 t1 t2)
  else
    m2.states.map (fun q2 => delEmit m1 t1 q2)

/-- The emissions of `compose_left`'s first loop nest: for every existing
input key `a` of `m1` and transition `t1` under it, the body `branchL`. -/
def pairsEmitL (m1 : FST St1) (m2 : FST St2) : List (Emit St1 St2) :=
  m1.keys_onin.flatMap (fun a =>
    (m1.oninList a).flatMap (fun t1 => branchL m1 m2 t1))

/-- The emissions of `compose_left`'s second loop nest: for every state of
`m1`, one insertion per epsilon-input transition of `m2`. -/
def insEmitL (m1 : FST St1) (m2 : FST St2) : List (Emit St1 St2) :=
  m1.states.flatMap (fun q1 =>
    (m2.oninList EPSILON).map (fun t2 => insEmit m2 q1 t2))

/-- All emissions of `compose_left`, in loop order. -/
def emitsL (m1 : FST St1) (m2 : FST St2) : List (Emit St1 St2) :=
  pairsEmitL m1 m2 ++ insEmitL m1 m2

/-- `m1_deletes` as set by `compose_left`: some enumerated transition of
`m1` has epsilon output. -/
def m1deletesL (m1 : FST St1) : Bool :=
  m1.keys_onin.any (fun a => (m1.oninList a).any (fun t1 => t1.a.2 = EPSILON))

/-- `m2_inserts` as set by `compose_left`: the insertion double loop body
ran at least once, i.e. `m1` has a state AND `m2` has an epsilon-input
transition. -/
def m2insertsL (m1 : FST St1) (m2 : FST St2) : Bool :=
  !m1.states.isEmpty && !(m2.oninList EPSILON).isEmpty

/-- The composed automaton before the conflict check: start state
`(m1.start, m2.start)`, all emissions added in order, accept state
`(m1.accept, m2.accept)`. -/
def composeBase (m1 : FST St1) (m2 : FST St2) : Composed St1 St2 :=
  ⟨FST.set_start FST.empty (m1.start, m2.start), fun _ => none⟩

/-- The result automaton of `compose_left` (built in full before the
conflict check, as in the code). -/
def composedL (m1 : FST St1) (m2 : FST St2) : Composed St1 St2 :=
  let c := (emitsL m1 m2).foldl emitStep (composeBase m1 m2)
  ⟨c.m.set_accept (m1.accept, m2.accept), c.prov⟩

/-- `compose_left`: raises (the `error` case) exactly when both flags are
set, after the full construction. -/
def compose_left (m1 : FST St1) (m2 : FST St2) :
    Except Unit (Composed St1 St2) :=
  if m1deletesL m1 && m2insertsL m1 m2 then .error ()
  else .ok (composedL m1 m2)

/-- Body of `compose_right`'s inner loop for one transition `t2` of `m2`:
matched pairs against `m1.transitions_on_output.get(t2.a[0])`, or (when
`t2` consumes epsilon) one insertion per state of `m1`. -/
def branchR (m1 : FST St1) (m2 : FST St2) (t2 : Transition St2) :
    List (Emit St1 St2) :=
  if t2.a.1 ≠ EPSILON then
    (m1.onoutList t2.a.1).map (fun t1 => pairEmit m1 m2 t1 t2)
  else
    m1.states.map (fun q1 => insEmit m2 q1 t2)

/-- The emissions of `compose_right`'s first loop nest, driven from `m2`'s
output keys. -/
def pairsEmitR (m1 : FST St1) (m2 : FST St2) : List (Emit St1 St2) :=
  m2.keys_onout.flatMap (fun b =>
    (m2.onoutList b).flatMap (fun t2 => branchR m1 m2 t2))

/-- The emissions of `compose_right`'s second loop nest: for every state of
`m2`, one deletion per epsilon-output transition of `m1`. -/
def delEmitR (m1 : FST St1) (m2 : FST St2) : List (Emit St1 St2) :=
  m2.states.flatMap (fun q2 =>
    (m1.onoutList EPSILON).map (fun t1 => delEmit m1 t1 q2))

/-- All emissions of `compose_right`, in loop order. -/
def emitsR (m1 : FST St1) (m2 : FST St2) : List (Emit St1 St2) :=
  pairsEmitR m1 m2 ++ delEmitR m1 m2

/-- `m2_inserts` as set by `compose_right`. -/
def m2insertsR (m2 : FST St2) : Bool :=
  m2.keys_onout.any (fun b =>
    (m2.onoutList b).any (fun t2 => t2.a.1 = EPSILON))

/-- `m1_deletes` as set by `compose_right`: its double loop body ran at
least once. -/
def m1deletesR (m1 : FST St1) (m2 : FST St2) : Bool :=
  !m2.states.isEmpty && !(m1.onoutList EPSILON).isEmpty

/-- The result automaton of `compose_right`. -/
def composedR (m1 : FST St1) (m2 : FST St2) : Composed St1 St2 :=
  let c := (emitsR m1 m2).foldl emitStep (composeBase m1 m2)
  ⟨c.m.set_accept (m1.accept, m2.accept), c.prov⟩

/-- `compose_right`. -/
def compose_right (m1 : FST St1) (m2 : FST St2) :
    Except Unit (Composed St1 St2) :=
  if m1deletesR m1 m2 && m2insertsR m2 then .error ()
  else .ok (composedR m1 m2)

/-- `compose = compose_left` (fst.py line 265). -/
def compose (m1 : FST St1) (m2 : FST St2) : Except Unit (Composed St1 St2) :=
  compose_left m1 m2

/-- Whether a composition call returned normally. -/
def eOk {α : Type} : Except Unit α → Bool
  | .ok _ => true
  | .error _ => false

theorem emitFold_w (L : List (Emit St1 St2)) (c : Composed St1 St2)
    (u : Transition (Option St1 × Option St2)) :
    (L.foldl emitStep c).m.w u =
      c.m.w u + ((L.filter (fun e => e.t = u)).map Emit.wt).sum := by
  induction L generalizing c with
  | nil => simp
  | cons e rest ih =>
      rw [List.foldl_cons, ih]
      by_cases h : e.t = u
      · subst h
        simp [List.filter_cons, emitStep, FST.add_transition, wupd]
        ring
      · simp [List.filter_cons, emitStep, FST.add_transition, wupd, h,
          show ¬ u = e.t from fun hh => h hh.symm]

theorem emitFold_mem_onin (L : List (Emit St1 St2)) (c : Composed St1 St2)
    (u : Transition (Option St1 × Option St2)) :
    u ∈ (L.foldl emitStep c).m.t_onin ↔
      u ∈ c.m.t_onin ∨ ∃ e ∈ L, e.t = u := by
  induction L generalizing c with
  | nil => simp
  | cons e rest ih =>
      rw [List.foldl_cons, ih]
      simp only [emitStep, FST.add_transition, mem_sinsert, List.mem_cons]
      constructor
      · rintro ((rfl | h) | ⟨e2, he2, ht⟩)
        · exact Or.inr ⟨e, Or.inl rfl, rfl⟩
        · exact Or.inl h
        · exact Or.inr ⟨e2, Or.inr he2, ht⟩
      · rintro (h | ⟨e2, (rfl | he2), ht⟩)
        · exact Or.inl (Or.inr h)
        · exact Or.inl (Or.inl ht.symm)
        · exact Or.inr ⟨e2, he2, ht⟩

theorem emitFold_mem_from (L : List (Emit St1 St2)) (c : Composed St1 St2)
    (u : Transition (Option St1 × Option St2)) :
    u ∈ (L.foldl emitStep c).m.t_from ↔
      u ∈ c.m.t_from ∨ ∃ e ∈ L, e.t = u := by
  induction L generalizing c with
  | nil => simp
  | cons e rest ih =>
      rw [List.foldl_cons, ih]
      simp only [emitStep, FST.add_transition, mem_sinsert, List.mem_cons]
      constructor
      · rintro ((rfl | h) | ⟨e2, he2, ht⟩)
        · exact Or.inr ⟨e, Or.inl rfl, rfl⟩
        · exact Or.inl h
        · exact Or.inr ⟨e2, Or.inr he2, ht⟩
      · rintro (h | ⟨e2, (rfl | he2), ht⟩)
        · exact Or.inl (Or.inr h)
        · exact Or.inl (Or.inl ht.symm)
        · exact Or.inr ⟨e2, he2, ht⟩

theorem emitFold_mem_to (L : List (Emit St1 St2)) (c : Composed St1 St2)
    (u : Transition (Option St1 × Option St2)) :
    u ∈ (L.foldl emitStep c).m.t_to ↔
      u ∈ c.m.t_to ∨ ∃ e ∈ L, e.t = u := by
  induction L generalizing c with
  | nil => simp
  | cons e rest ih =>
      rw [List.foldl_cons, ih]
      simp only [emitStep, FST.add_transition, mem_sinsert, List.mem_cons]
      constructor
      · rintro ((rfl | h) | ⟨e2, he2, ht⟩)
        · exact Or.inr ⟨e, Or.inl rfl, rfl⟩
        · exact Or.inl h
        · exact Or.inr ⟨e2, Or.inr he2, ht⟩
      · rintro (h | ⟨e2, (rfl | he2), ht⟩)
        · exact Or.inl (Or.inr h)
        · exact Or.inl (Or.inl ht.symm)
        · exact Or.inr ⟨e2, he2, ht⟩

theorem emitFold_mem_onout (L : List (Emit St1 St2)) (c : Composed St1 St2)
    (u : Transition (Option St1 × Option St2)) :
    u ∈ (L.foldl emitStep c).m.t_onout ↔
      u ∈ c.m.t_onout ∨ ∃ e ∈ L, e.t = u := by
  induction L generalizing c with
  | nil => simp
  | cons e rest ih =>
      rw [List.foldl_cons, ih]
      simp only [emitStep, FST.add_transition, mem_sinsert, List.mem_cons]
      constructor
      · rintro ((rfl | h) | ⟨e2, he2, ht⟩)
        · exact Or.inr ⟨e, Or.inl rfl, rfl⟩
        · exact Or.inl h
        · exact Or.inr ⟨e2, Or.inr he2, ht⟩
      · rintro (h | ⟨e2, (rfl | he2), ht⟩)
        · exact Or.inl (Or.inr h)
        · exact Or.inl (Or.inl ht.symm)
        · exact Or.inr ⟨e2, he2, ht⟩

theorem emitFold_mem_states (L : List (Emit St1 St2)) (c : Composed St1 St2)
    (x : Option St1 × Option St2) :
    x ∈ (L.foldl emitStep c).m.states ↔
      x ∈ c.m.states ∨ ∃ e ∈ L, e.t.q = x ∨ e.t.r = x := by
  induction L generalizing c with
  | nil => simp
  | cons e rest ih =>
      rw [List.foldl_cons, ih]
      simp only [emitStep, FST.add_transition, mem_sinsert, List.mem_cons]
      constructor
      · rintro ((rfl | rfl | h) | ⟨e2, he2, ht⟩)
        · exact Or.inr ⟨e, Or.inl rfl, Or.inr rfl⟩
        · exact Or.inr ⟨e, Or.inl rfl, Or.inl rfl⟩
        · exact Or.inl h
        · exact Or.inr ⟨e2, Or.inr he2, ht⟩
      · rintro (h | ⟨e2, (rfl | he2), (ht | ht)⟩)
        · exact Or.inl (Or.inr (Or.inr h))
        · exact Or.inl (Or.inr (Or.inl ht.symm))
        · exact Or.inl (Or.inl ht.symm)
        · exact Or.inr ⟨e2, he2, Or.inl ht⟩
        · exact Or.inr ⟨e2, he2, Or.inr ht⟩

theorem emitFold_mem_inAl (L : List (Emit St1 St2)) (c : Composed St1 St2)
    (a : String) :
    a ∈ (L.foldl emitStep c).m.input_alphabet ↔
      a ∈ c.m.input_alphabet ∨ ∃ e ∈ L, e.t.a.1 = a := by
  induction L generalizing c with
  | nil => simp
  | cons e rest ih =>
      rw [List.foldl_cons, ih]
      simp only [emitStep, FST.add_transition, mem_sinsert, List.mem_cons]
      constructor
      · rintro ((rfl | h) | ⟨e2, he2, ht⟩)
        · exact Or.inr ⟨e, Or.inl rfl, rfl⟩
        · exact Or.inl h
        · exact Or.inr ⟨e2, Or.inr he2, ht⟩
      · rintro (h | ⟨e2, (rfl | he2), ht⟩)
        · exact Or.inl (Or.inr h)
        · exact Or.inl (Or.inl ht.symm)
        · exact Or.inr ⟨e2, he2, ht⟩

theorem emitFold_mem_outAl (L : List (Emit St1 St2)) (c : Composed St1 St2)
    (b : String) :
    b ∈ (L.foldl emitStep c).m.output_alphabet ↔
      b ∈ c.m.output_alphabet ∨ ∃ e ∈ L, e.t.a.2 = b := by
  induction L generalizing c with
  | nil => simp
  | cons e rest ih =>
      rw [List.foldl_cons, ih]
      simp only [emitStep, FST.add_transition, mem_sinsert, List.mem_cons]
      constructor
      · rintro ((rfl | h) | ⟨e2, he2, ht⟩)
        · exact Or.inr ⟨e, Or.inl rfl, rfl⟩
        · exact Or.inl h
        · exact Or.inr ⟨e2, Or.inr he2, ht⟩
      · rintro (h | ⟨e2, (rfl | he2), ht⟩)
        · exact Or.inl (Or.inr h)
        · exact Or.inl (Or.inl ht.symm)
        · exact Or.inr ⟨e2, he2, ht⟩

theorem emitFold_start (L : List (Emit St1 St2)) (c : Composed St1 St2) :
    (L.foldl emitStep c).m.start = c.m.start := by
  induction L generalizing c with
  | nil => rfl
  | cons e rest ih => rw [List.foldl_cons, ih]; rfl

theorem emitFold_accept (L : List (Emit St1 St2)) (c : Composed St1 St2) :
    (L.foldl emitStep c).m.accept = c.m.accept := by
  induction L generalizing c with
  | nil => rfl
  | cons e rest ih => rw [List.foldl_cons, ih]; rfl

theorem emitFold_prov_present (L : List (Emit St1 St2)) (c : Composed St1 St2)
    {u : Transition (Option St1 × Option St2)} (hu : u ∈ c.m.t_onin) :
    (L.foldl emitStep c).prov u = c.prov u := by
  induction L generalizing c with
  | nil => rfl
  | cons e rest ih =>
      rw [List.foldl_cons]
      have hu2 : u ∈ (emitStep c e).m.t_onin := by
        simp only [emitStep, FST.add_transition, mem_sinsert]
        exact Or.inr hu
      rw [ih _ hu2]
      simp only [emitStep]
      by_cases hin : e.t ∈ c.m.t_onin
      · rw [if_pos hin]
      · rw [if_neg hin]
        have hne : u ≠ e.t := fun h => hin (h ▸ hu)
        simp [provUpd, hne]

theorem emitFold_prov_absent (L : List (Emit St1 St2)) (c : Composed St1 St2)
    {u : Transition (Option St1 × Option St2)} (hu : u ∉ c.m.t_onin)
    (hp : c.prov u = none) :
    (L.foldl emitStep c).prov u =
      (L.find? (fun e => e.t = u)).map Emit.org := by
  induction L generalizing c with
  | nil => simpa using hp
  | cons e rest ih =>
      rw [List.foldl_cons]
      by_cases h : e.t = u
      · have hin : e.t ∉ c.m.t_onin := h ▸ hu
        have hu2 : u ∈ (emitStep c e).m.t_onin := by
          simp only [emitStep, FST.add_transition, mem_sinsert]
          exact Or.inl h.symm
        rw [emitFold_prov_present rest _ hu2]
        simp only [emitStep, if_neg hin, provUpd, if_pos h.symm]
        simp [List.find?, h]
      · have hu2 : u ∉ (emitStep c e).m.t_onin := by
          simp only [emitStep, FST.add_transition, mem_sinsert]
          rintro (rfl1 | h2)
          · exact h rfl1.symm
          · exact hu h2
        have hp2 : (emitStep c e).prov u = none := by
          simp only [emitStep]
          by_cases hin : e.t ∈ c.m.t_onin
          · rw [if_pos hin]
            exact hp
          · rw [if_neg hin]
            simp only [provUpd]
            rw [if_neg (fun hh : u = e.t => h hh.symm)]
            exact hp
        rw [ih _ hu2 hp2]
        simp [List.find?, h]

theorem find?_eq_head_filter {α : Type} (L : List α) (p : α → Bool) :
    L.find? p = (L.filter p).head? := by
  induction L with
  | nil => rfl
  | cons x rest ih =>
      by_cases h : p x
      · simp [List.find?, List.filter, h]
      · simp only [List.find?, List.filter, Bool.not_eq_true] at h ⊢
        rw [h]
        simpa using ih

/-- Well-formedness of an automaton as actually built through the public
interface without reweighting unknown transitions: states and index key
sequences are duplicate-free (Python sets/dicts), the four indices hold the
same transitions in the same insertion order, every indexed transition's
endpoints are states, and every indexed transition is reachable under its
own key in the symbol-keyed indices. -/
def FST.IndexWF (m : FST St) : Prop :=
  m.states.Nodup ∧ m.t_from.Nodup ∧
  m.t_onin = m.t_from ∧ m.t_onout = m.t_from ∧ m.t_to = m.t_from ∧
  (∀ t ∈ m.t_from, t.q ∈ m.states ∧ t.r ∈ m.states) ∧
  (∀ t ∈ m.t_from, t.a.1 ∈ m.keys_onin) ∧
  (∀ t ∈ m.t_from, t.a.2 ∈ m.keys_onout) ∧
  m.keys_onin.Nodup ∧ m.keys_onout.Nodup

instance (m : FST St) : Decidable m.IndexWF := by
  unfold FST.IndexWF
  infer_instance

theorem m1deletesL_iff {m1 : FST St1}
    (hcov : ∀ t ∈ m1.t_onin, t.a.1 ∈ m1.keys_onin) :
    m1deletesL m1 = true ↔ ∃ t1 ∈ m1.t_onin, t1.a.2 = EPSILON := by
  simp only [m1deletesL, List.any_eq_true, FST.mem_oninList,
    decide_eq_true_eq]
  constructor
  · rintro ⟨a, _, t1, ⟨ht1, _⟩, hdel⟩
    exact ⟨t1, ht1, hdel⟩
  · rintro ⟨t1, ht1, hdel⟩
    exact ⟨t1.a.1, hcov t1 ht1, t1, ⟨ht1, rfl⟩, hdel⟩

theorem m2insertsL_iff {m1 : FST St1} {m2 : FST St2} :
    m2insertsL m1 m2 = true ↔
      m1.states ≠ [] ∧ ∃ t2 ∈ m2.t_onin, t2.a.1 = EPSILON := by
  simp only [m2insertsL, Bool.and_eq_true, Bool.not_eq_true',
    List.isEmpty_eq_false_iff_exists_mem]
  constructor
  · rintro ⟨⟨x, hx⟩, e, he⟩
    refine ⟨fun h => by simp [h] at hx, ?_⟩
    have := FST.mem_oninList.mp he
    exact ⟨e, this.1, this.2⟩
  · rintro ⟨h1, t2, ht2, hins⟩
    refine ⟨?_, ⟨t2, FST.mem_oninList.mpr ⟨ht2, hins⟩⟩⟩
    cases hs : m1.states with
    | nil => exact absurd hs h1
    | cons x rest => exact ⟨x, hs ▸ List.mem_cons_self x rest⟩

theorem m2insertsR_iff {m2 : FST St2}
    (hcov : ∀ t ∈ m2.t_onout, t.a.2 ∈ m2.keys_onout) :
    m2insertsR m2 = true ↔ ∃ t2 ∈ m2.t_onout, t2.a.1 = EPSILON := by
  simp only [m2insertsR, List.any_eq_true, FST.mem_onoutList,
    decide_eq_true_eq]
  constructor
  · rintro ⟨b, _, t2, ⟨ht2, _⟩, hins⟩
    exact ⟨t2, ht2, hins⟩
  · rintro ⟨t2, ht2, hins⟩
    exact ⟨t2.a.2, hcov t2 ht2, t2, ⟨ht2, rfl⟩, hins⟩

theorem m1deletesR_iff {m1 : FST St1} {m2 : FST St2} :
    m1deletesR m1 m2 = true ↔
      m2.states ≠ [] ∧ ∃ t1 ∈ m1.t_onout, t1.a.2 = EPSILON := by
  simp only [m1deletesR, Bool.and_eq_true, Bool.not_eq_true',
    List.isEmpty_eq_false_iff_exists_mem]
  constructor
  · rintro ⟨⟨x, hx⟩, e, he⟩
    refine ⟨fun h => by simp [h] at hx, ?_⟩
    have := FST.mem_onoutList.mp he
    exact ⟨e, this.1, this.2⟩
  · rintro ⟨h1, t1, ht1, hdel⟩
    refine ⟨?_, ⟨t1, FST.mem_onoutList.mpr ⟨ht1, hdel⟩⟩⟩
    cases hs : m2.states with
    | nil => exact absurd hs h1
    | cons x rest => exact ⟨x, hs ▸ List.mem_cons_self x rest⟩

/-! ### Claim C4: the composition conflict policy -/

/-- The pathological C4 automaton: its only transition entered the indices
through `reweight_transition`, so it deletes (epsilon output) but has NO
states. -/
def c4m1 : FST ℕ := FST.empty.reweight_transition ⟨0, ("a", EPSILON), 1⟩ 1

/-- An inserting second automaton for C4. -/
def c4m2 : FST ℕ := FST.empty.add_transition ⟨0, (EPSILON, "b"), 1⟩ 1

/-- C4 (counterexample).  The claim's "if and only if" fails on automata
reachable through the public interface: `c4m1` has a deletion transition
(in its indices) and `c4m2` an insertion transition, yet
`compose(c4m1, c4m2)` returns normally, because the `m2_inserts` flag is
only ever set inside a loop over `m1.states`, which is empty here
(`reweight_transition` registers a transition without adding its
endpoints to `states`). -/
theorem compose_conflict_counterexample :
    (∃ t1 ∈ c4m1.t_from, t1.a.2 = EPSILON) ∧
    (∃ t2 ∈ c4m2.t_from, t2.a.1 = EPSILON) ∧
    eOk (compose c4m1 c4m2) = true := by
  refine ⟨?_, ?_, ?_⟩
  · decide
  · decide
  · decide

/-- C4 (amended).  For index-well-formed automata (every automaton built
without reweighting unknown transitions), `compose` raises the conflict
error if and only if `m1` has a transition with epsilon output AND `m2` has
a transition with epsilon input; in all other cases it returns the composed
automaton (the error being raised before anything is returned). -/
theorem compose_conflict_iff (m1 : FST St1) (m2 : FST St2)
    (h1 : m1.IndexWF) (h2 : m2.IndexWF) :
    eOk (compose m1 m2) = false ↔
      (∃ t1 ∈ m1.t_from, t1.a.2 = EPSILON) ∧
      (∃ t2 ∈ m2.t_from, t2.a.1 = EPSILON) := by
  obtain ⟨hnd1, hndf1, honin1, honout1, hto1, hend1, hcovin1, hcovout1, _, _⟩
    := h1
  obtain ⟨hnd2, hndf2, honin2, honout2, hto2, hend2, hcovin2, hcovout2, _, _⟩
    := h2
  have hres : eOk (compose m1 m2) = false ↔
      (m1deletesL m1 = true ∧ m2insertsL m1 m2 = true) := by
    unfold compose compose_left
    by_cases hflag : m1deletesL m1 && m2insertsL m1 m2
    · rw [if_pos hflag]
      simpa [eOk] using Bool.and_eq_true _ _ |>.mp hflag
    · rw [if_neg hflag]
      simp only [eOk]
      constructor
      · intro h
        exact absurd h (by decide)
      · rintro ⟨ha, hb⟩
        exact absurd (Bool.and_eq_true _ _ |>.mpr ⟨ha, hb⟩) hflag
  rw [hres, m1deletesL_iff (honin1 ▸ hcovin1), m2insertsL_iff, honin1, honin2]
  constructor
  · rintro ⟨hdel, _, hins⟩
    exact ⟨hdel, hins⟩
  · rintro ⟨⟨t1, ht1, hdel⟩, hins⟩
    refine ⟨⟨t1, ht1, hdel⟩, ?_, hins⟩
    intro hnil
    have := (hend1 t1 ht1).1
    rw [hnil] at this
    exact List.not_mem_nil _ this

/-- A deleting automaton, built normally, for the C4/C5 witnesses. -/
def c4wm1 : FST ℕ := FST.empty.add_transition ⟨0, ("a", EPSILON), 1⟩ 1

/-- An inserting automaton, built normally, for the C4/C5 witnesses. -/
def c4wm2 : FST ℕ := FST.empty.add_transition ⟨0, (EPSILON, "b"), 1⟩ 1

/-- C4 witness: the amended equivalence applied to a concrete well-formed
deleting/inserting pair (where composition does raise). -/
theorem compose_conflict_iff_witness :
    c4wm1.IndexWF ∧ c4wm2.IndexWF ∧
      (eOk (compose c4wm1 c4wm2) = false ↔
        (∃ t1 ∈ c4wm1.t_from, t1.a.2 = EPSILON) ∧
        (∃ t2 ∈ c4wm2.t_from, t2.a.1 = EPSILON)) :=
  ⟨by decide, by decide,
   compose_conflict_iff c4wm1 c4wm2 (by decide) (by decide)⟩

/-! ### Claim C9: composition reads but never writes its sources -/

/-- The auto-vivifying read `m.transitions_on_input[a]` performed by
`compose_left` on `m1`: a defaultdict getitem inserts the key if absent. -/
def vivOnin (m : FST St) (a : String) : FST St :=
  { m with keys_onin := sinsert a m.keys_onin }

/-- The auto-vivifying read `m.transitions_on_output[b]` performed by
`compose_right` on `m2`. -/
def vivOnout (m : FST St) (b : String) : FST St :=
  { m with keys_onout := sinsert b m.keys_onout }

/-- `compose_left` together with the state of its two source automata after
the call: the only dict accesses it performs on them are the vivifying
getitem `m1.transitions_on_input[a]` for each existing key `a` of that same
dict (modelled by the fold), and non-vivifying `.get` reads of `m2`. -/
def compose_left_run (m1 : FST St1) (m2 : FST St2) :
    Except Unit (Composed St1 St2) × FST St1 × FST St2 :=
  (compose_left m1 m2, m1.keys_onin.foldl vivOnin m1, m2)

/-- `compose_right` with the state of its sources after the call: it
performs the vivifying getitem `m2.transitions_on_output[b]` for each
existing key `b`, and non-vivifying `.get` reads of `m1`. -/
def compose_right_run (m1 : FST St1) (m2 : FST St2) :
    Except Unit (Composed St1 St2) × FST St1 × FST St2 :=
  (compose_right m1 m2, m1, m2.keys_onout.foldl vivOnout m2)

theorem foldl_vivOnin_self {l : List String} {m : FST St}
    (h : ∀ a ∈ l, a ∈ m.keys_onin) : l.foldl vivOnin m = m := by
  induction l with
  | nil => rfl
  | cons a rest ih =>
      have hstep : vivOnin m a = m := by
        simp [vivOnin, sinsert_of_mem (h a (List.mem_cons_self a rest))]
      rw [List.foldl_cons, hstep]
      exact ih (fun b hb => h b (List.mem_cons_of_mem a hb))

theorem foldl_vivOnout_self {l : List String} {m : FST St}
    (h : ∀ b ∈ l, b ∈ m.keys_onout) : l.foldl vivOnout m = m := by
  induction l with
  | nil => rfl
  | cons b rest ih =>
      have hstep : vivOnout m b = m := by
        simp [vivOnout, sinsert_of_mem (h b (List.mem_cons_self b rest))]
      rw [List.foldl_cons, hstep]
      exact ih (fun x hx => h x (List.mem_cons_of_mem b hx))

/-- C9.  Neither composition variant mutates its sources: whether it returns
or raises, every dict access either reads without vivifying (`.get`) or
vivifies a key that is already present, so both automata are exactly what
they were before the call — states, start, accept, alphabets, transitions,
weights and index keys included. -/
theorem compose_never_mutates_sources (m1 : FST St1) (m2 : FST St2) :
    (compose_left_run m1 m2).2.1 = m1 ∧
    (compose_left_run m1 m2).2.2 = m2 ∧
    (compose_right_run m1 m2).2.1 = m1 ∧
    (compose_right_run m1 m2).2.2 = m2 :=
  ⟨foldl_vivOnin_self (fun _ ha => ha), rfl, rfl,
   foldl_vivOnout_self (fun _ hb => hb)⟩

/-! ### Claim C5: equivalence of the two composition variants -/

/-- Pathological deleting automaton for C5 (indices populated through
`reweight_transition`, so `states` is empty). -/
def c5m1 : FST ℕ := FST.empty.reweight_transition ⟨5, ("x", EPSILON), 6⟩ 1

/-- Ordinary inserting automaton for C5. -/
def c5m2 : FST ℕ := FST.empty.add_transition ⟨7, (EPSILON, "y"), 8⟩ 1

/-- C5 (counterexample).  The variants do NOT raise in exactly the same
cases on every pair of automata reachable through the public interface:
with `c5m1` (a deletion transition in the indices but no states) and `c5m2`
(a normal inserting automaton), `compose_left` returns normally — its
`m2_inserts` flag is set inside a loop over `m1.states`, which is empty —
while `compose_right` raises the conflict error, because its `m1_deletes`
flag is set inside a loop over `m2.states`, which is nonempty. -/
theorem compose_variants_disagree_counterexample :
    eOk (compose_left c5m1 c5m2) = true ∧
    eOk (compose_right c5m1 c5m2) = false := by
  constructor
  · decide
  · decide

/-- The total weight contributed to composed transition `u` by a list of
emissions. -/
def contribSum (L : List (Emit St1 St2))
    (u : Transition (Option St1 × Option St2)) : ℚ :=
  ((L.filter (fun e => e.t = u)).map Emit.wt).sum

theorem filter_mapsum {α : Type} (l : List α) (p : α → Bool) (f : α → ℚ) :
    ((l.filter p).map f).sum = (l.map (fun x => if p x then f x else 0)).sum
    := by
  induction l with
  | nil => rfl
  | cons x rest ih =>
      by_cases h : p x
      · simp [List.filter_cons, h, ih]
      · simp [List.filter_cons, h, ih]

theorem mapsum_flatMap {α β : Type} (l : List α) (g : α → List β)
    (f : β → ℚ) :
    ((l.flatMap g).map f).sum = (l.map (fun x => ((g x).map f).sum)).sum := by
  induction l with
  | nil => rfl
  | cons x rest ih => simp [List.flatMap_cons, ih]

theorem contribSum_eq_mapsum (L : List (Emit St1 St2))
    (u : Transition (Option St1 × Option St2)) :
    contribSum L u = (L.map (fun e => if e.t = u then e.wt else 0)).sum := by
  rw [contribSum, filter_mapsum]
  simp only [decide_eq_true_eq]

theorem contribSum_append (A B : List (Emit St1 St2))
    (u : Transition (Option St1 × Option St2)) :
    contribSum (A ++ B) u = contribSum A u + contribSum B u := by
  simp [contribSum, List.filter_append]

theorem contribSum_flatMap {α : Type} (l : List α)
    (g : α → List (Emit St1 St2))
    (u : Transition (Option St1 × Option St2)) :
    contribSum (l.flatMap g) u =
      (l.map (fun x => contribSum (g x) u)).sum := by
  rw [contribSum_eq_mapsum, mapsum_flatMap]
  refine congrArg _ (List.map_congr_left ?_)
  intro x _
  rw [contribSum_eq_mapsum]

theorem contribSum_map {α : Type} (l : List α) (h : α → Emit St1 St2)
    (u : Transition (Option St1 × Option St2)) :
    contribSum (l.map h) u =
      (l.map (fun x => if (h x).t = u then (h x).wt else 0)).sum := by
  rw [contribSum_eq_mapsum, List.map_map]
  rfl

theorem listsum_toFinset {α : Type} [DecidableEq α] (l : List α)
    (hl : l.Nodup) (f : α → ℚ) : (l.map f).sum = ∑ x ∈ l.toFinset, f x :=
  (List.sum_toFinset f hl).symm

/-- Canonical per-target weight mass of the matched-pair emissions. -/
def pairSumC (m1 : FST St1) (m2 : FST St2)
    (u : Transition (Option St1 × Option St2)) : ℚ :=
  ∑ t1 ∈ m1.t_from.toFinset, ∑ t2 ∈ m2.t_from.toFinset,
    if t1.a.2 ≠ EPSILON ∧ t2.a.1 = t1.a.2 ∧ pairTr t1 t2 = u then
      m1.w t1 * m2.w t2
    else 0

/-- Canonical per-target weight mass of the deletion emissions. -/
def delSumC (m1 : FST St1) (m2 : FST St2)
    (u : Transition (Option St1 × Option St2)) : ℚ :=
  ∑ t1 ∈ m1.t_from.toFinset, ∑ q2 ∈ m2.states.toFinset,
    if t1.a.2 = EPSILON ∧ delTr t1 q2 = u then m1.w t1 else 0

/-- Canonical per-target weight mass of the insertion emissions. -/
def insSumC (m1 : FST St1) (m2 : FST St2)
    (u : Transition (Option St1 × Option St2)) : ℚ :=
  ∑ q1 ∈ m1.states.toFinset, ∑ t2 ∈ m2.t_from.toFinset,
    if t2.a.1 = EPSILON ∧ insTr q1 t2 = u then m2.w t2 else 0

theorem contribSum_branchL (m1 : FST St1) (m2 : FST St2)
    (u : Transition (Option St1 × Option St2))
    (hnd2 : m2.t_onin.Nodup) (hnds2 : m2.states.Nodup)
    (t1 : Transition St1) :
    contribSum (branchL m1 m2 t1) u =
      (∑ t2 ∈ m2.t_onin.toFinset,
        if t1.a.2 ≠ EPSILON ∧ t2.a.1 = t1.a.2 ∧ pairTr t1 t2 = u then
          m1.w t1 * m2.w t2 else 0) +
      (∑ q2 ∈ m2.states.toFinset,
        if t1.a.2 = EPSILON ∧ delTr t1 q2 = u then m1.w t1 else 0) := by
  by_cases hte : t1.a.2 = EPSILON
  · rw [branchL, if_neg (fun h => h hte), contribSum_map,
      listsum_toFinset _ hnds2]
    have hzero : (∑ t2 ∈ m2.t_onin.toFinset,
        if t1.a.2 ≠ EPSILON ∧ t2.a.1 = t1.a.2 ∧ pairTr t1 t2 = u then
          m1.w t1 * m2.w t2 else 0) = 0 := by
      refine Finset.sum_eq_zero ?_
      intro t2 _
      rw [if_neg]
      rintro ⟨h1, _⟩
      exact h1 hte
    rw [hzero, zero_add]
    refine Finset.sum_congr rfl ?_
    intro q2 _
    by_cases hu : delTr t1 q2 = u
    · rw [if_pos (show (delEmit m1 t1 q2).t = u from hu),
        if_pos ⟨hte, hu⟩]
      rfl
    · rw [if_neg (show ¬ (delEmit m1 t1 q2).t = u from hu),
        if_neg (fun hh => hu hh.2)]
  · rw [branchL, if_pos hte, contribSum_map]
    rw [show m2.oninList t1.a.2
        = m2.t_onin.filter (fun t => t.a.1 = t1.a.2) from rfl,
      filter_mapsum, listsum_toFinset _ hnd2]
    have hzero : (∑ q2 ∈ m2.states.toFinset,
        if t1.a.2 = EPSILON ∧ delTr t1 q2 = u then m1.w t1 else 0) = 0 :=
      Finset.sum_eq_zero (fun q2 _ => if_neg (fun hh => hte hh.1))
    rw [hzero, add_zero]
    refine Finset.sum_congr rfl ?_
    intro t2 _
    simp only [decide_eq_true_eq]
    by_cases h1 : t2.a.1 = t1.a.2
    · by_cases h2 : pairTr t1 t2 = u
      · rw [if_pos h1, if_pos (show (pairEmit m1 m2 t1 t2).t = u from h2),
          if_pos ⟨hte, h1, h2⟩]
        rfl
      · rw [if_pos h1, if_neg (show ¬ (pairEmit m1 m2 t1 t2).t = u from h2),
          if_neg (fun hh => h2 hh.2.2)]
    · rw [if_neg h1, if_neg (fun hh => h1 hh.2.1)]

theorem contribSum_pairsEmitL (m1 : FST St1) (m2 : FST St2)
    (u : Transition (Option St1 × Option St2))
    (hnd1 : m1.t_onin.Nodup) (hknd : m1.keys_onin.Nodup)
    (hnd2 : m2.t_onin.Nodup) (hnds2 : m2.states.Nodup)
    (hcov : ∀ t ∈ m1.t_onin, t.a.1 ∈ m1.keys_onin) :
    contribSum (pairsEmitL m1 m2) u =
      (∑ t1 ∈ m1.t_onin.toFinset, ∑ t2 ∈ m2.t_onin.toFinset,
        if t1.a.2 ≠ EPSILON ∧ t2.a.1 = t1.a.2 ∧ pairTr t1 t2 = u then
          m1.w t1 * m2.w t2 else 0) +
      (∑ t1 ∈ m1.t_onin.toFinset, ∑ q2 ∈ m2.states.toFinset,
        if t1.a.2 = EPSILON ∧ delTr t1 q2 = u then m1.w t1 else 0) := by
  rw [pairsEmitL, contribSum_flatMap]
  have step1 : (m1.keys_onin.map (fun a =>
      contribSum ((m1.oninList a).flatMap (fun t1 => branchL m1 m2 t1)) u)).sum
      = (m1.keys_onin.map (fun a => (m1.t_onin.map (fun t1 =>
          if t1.a.1 = a then contribSum (branchL m1 m2 t1) u else 0)).sum)).sum
      := by
    refine congrArg _ (List.map_congr_left ?_)
    intro a _
    rw [contribSum_flatMap,
      show m1.oninList a = m1.t_onin.filter (fun t => t.a.1 = a) from rfl,
      filter_mapsum]
    simp only [decide_eq_true_eq]
  rw [step1, listsum_toFinset _ hknd]
  have step2 : ∀ a ∈ m1.keys_onin.toFinset,
      (m1.t_onin.map (fun t1 =>
        if t1.a.1 = a then contribSum (branchL m1 m2 t1) u else 0)).sum
      = ∑ t1 ∈ m1.t_onin.toFinset,
          if t1.a.1 = a then contribSum (branchL m1 m2 t1) u else 0 :=
    fun a _ => listsum_toFinset _ hnd1 _
  rw [Finset.sum_congr rfl step2, Finset.sum_comm]
  have step3 : ∀ t1 ∈ m1.t_onin.toFinset,
      (∑ a ∈ m1.keys_onin.toFinset,
        if t1.a.1 = a then contribSum (branchL m1 m2 t1) u else 0)
      = contribSum (branchL m1 m2 t1) u := by
    intro t1 ht1
    rw [Finset.sum_ite_eq m1.keys_onin.toFinset t1.a.1
      (fun _ => contribSum (branchL m1 m2 t1) u)]
    exact if_pos (List.mem_toFinset.mpr (hcov t1 (List.mem_toFinset.mp ht1)))
  rw [Finset.sum_congr rfl step3, ← Finset.sum_add_distrib]
  exact Finset.sum_congr rfl
    (fun t1 _ => contribSum_branchL m1 m2 u hnd2 hnds2 t1)

theorem contribSum_insEmitL (m1 : FST St1) (m2 : FST St2)
    (u : Transition (Option St1 × Option St2))
    (hnds1 : m1.states.Nodup) (hnd2 : m2.t_onin.Nodup) :
    contribSum (insEmitL m1 m2) u =
      ∑ q1 ∈ m1.states.toFinset, ∑ t2 ∈ m2.t_onin.toFinset,
        if t2.a.1 = EPSILON ∧ insTr q1 t2 = u then m2.w t2 else 0 := by
  rw [insEmitL, contribSum_flatMap, listsum_toFinset _ hnds1]
  refine Finset.sum_congr rfl ?_
  intro q1 _
  rw [contribSum_map,
    show m2.oninList EPSILON
      = m2.t_onin.filter (fun t => t.a.1 = EPSILON) from rfl,
    filter_mapsum, listsum_toFinset _ hnd2]
  refine Finset.sum_congr rfl ?_
  intro t2 _
  simp only [decide_eq_true_eq]
  by_cases h1 : t2.a.1 = EPSILON
  · by_cases h2 : insTr q1 t2 = u
    · rw [if_pos h1, if_pos (show (insEmit m2 q1 t2).t = u from h2),
        if_pos ⟨h1, h2⟩]
      rfl
    · rw [if_pos h1, if_neg (show ¬ (insEmit m2 q1 t2).t = u from h2),
        if_neg (fun hh => h2 hh.2)]
  · rw [if_neg h1, if_neg (fun hh => h1 hh.1)]

theorem contribSum_branchR (m1 : FST St1) (m2 : FST St2)
    (u : Transition (Option St1 × Option St2))
    (hnd1 : m1.t_onout.Nodup) (hnds1 : m1.states.Nodup)
    (t2 : Transition St2) :
    contribSum (branchR m1 m2 t2) u =
      (∑ t1 ∈ m1.t_onout.toFinset,
        if t2.a.1 ≠ EPSILON ∧ t1.a.2 = t2.a.1 ∧ pairTr t1 t2 = u then
          m1.w t1 * m2.w t2 else 0) +
      (∑ q1 ∈ m1.states.toFinset,
        if t2.a.1 = EPSILON ∧ insTr q1 t2 = u then m2.w t2 else 0) := by
  by_cases hte : t2.a.1 = EPSILON
  · rw [branchR, if_neg (fun h => h hte), contribSum_map,
      listsum_toFinset _ hnds1]
    have hzero : (∑ t1 ∈ m1.t_onout.toFinset,
        if t2.a.1 ≠ EPSILON ∧ t1.a.2 = t2.a.1 ∧ pairTr t1 t2 = u then
          m1.w t1 * m2.w t2 else 0) = 0 := by
      refine Finset.sum_eq_zero ?_
      intro t1 _
      rw [if_neg]
      rintro ⟨h1, _⟩
      exact h1 hte
    rw [hzero, zero_add]
    refine Finset.sum_congr rfl ?_
    intro q1 _
    by_cases hu : insTr q1 t2 = u
    · rw [if_pos (show (insEmit m2 q1 t2).t = u from hu),
        if_pos ⟨hte, hu⟩]
      rfl
    · rw [if_neg (show ¬ (insEmit m2 q1 t2).t = u from hu),
        if_neg (fun hh => hu hh.2)]
  · rw [branchR, if_pos hte, contribSum_map]
    rw [show m1.onoutList t2.a.1
        = m1.t_onout.filter (fun t => t.a.2 = t2.a.1) from rfl,
      filter_mapsum, listsum_toFinset _ hnd1]
    have hzero : (∑ q1 ∈ m1.states.toFinset,
        if t2.a.1 = EPSILON ∧ insTr q1 t2 = u then m2.w t2 else 0) = 0 :=
      Finset.sum_eq_zero (fun q1 _ => if_neg (fun hh => hte hh.1))
    rw [hzero, add_zero]
    refine Finset.sum_congr rfl ?_
    intro t1 _
    simp only [decide_eq_true_eq]
    by_cases h1 : t1.a.2 = t2.a.1
    · by_cases h2 : pairTr t1 t2 = u
      · rw [if_pos h1, if_pos (show (pairEmit m1 m2 t1 t2).t = u from h2),
          if_pos ⟨hte, h1, h2⟩]
        rfl
      · rw [if_pos h1, if_neg (show ¬ (pairEmit m1 m2 t1 t2).t = u from h2),
          if_neg (fun hh => h2 hh.2.2)]
    · rw [if_neg h1, if_neg (fun hh => h1 hh.2.1)]

theorem contribSum_pairsEmitR (m1 : FST St1) (m2 : FST St2)
    (u : Transition (Option St1 × Option St2))
    (hnd2 : m2.t_onout.Nodup) (hknd : m2.keys_onout.Nodup)
    (hnd1 : m1.t_onout.Nodup) (hnds1 : m1.states.Nodup)
    (hcov : ∀ t ∈ m2.t_onout, t.a.2 ∈ m2.keys_onout) :
    contribSum (pairsEmitR m1 m2) u =
      (∑ t2 ∈ m2.t_onout.toFinset, ∑ t1 ∈ m1.t_onout.toFinset,
        if t2.a.1 ≠ EPSILON ∧ t1.a.2 = t2.a.1 ∧ pairTr t1 t2 = u then
          m1.w t1 * m2.w t2 else 0) +
      (∑ t2 ∈ m2.t_onout.toFinset, ∑ q1 ∈ m1.states.toFinset,
        if t2.a.1 = EPSILON ∧ insTr q1 t2 = u then m2.w t2 else 0) := by
  rw [pairsEmitR, contribSum_flatMap]
  have step1 : (m2.keys_onout.map (fun b =>
      contribSum ((m2.onoutList b).flatMap (fun t2 => branchR m1 m2 t2)) u)).sum
      = (m2.keys_onout.map (fun b => (m2.t_onout.map (fun t2 =>
          if t2.a.2 = b then contribSum (branchR m1 m2 t2) u else 0)).sum)).sum
      := by
    refine congrArg _ (List.map_congr_left ?_)
    intro b _
    rw [contribSum_flatMap,
      show m2.onoutList b = m2.t_onout.filter (fun t => t.a.2 = b) from rfl,
      filter_mapsum]
    simp only [decide_eq_true_eq]
  rw [step1, listsum_toFinset _ hknd]
  have step2 : ∀ b ∈ m2.keys_onout.toFinset,
      (m2.t_onout.map (fun t2 =>
        if t2.a.2 = b then contribSum (branchR m1 m2 t2) u else 0)).sum
      = ∑ t2 ∈ m2.t_onout.toFinset,
          if t2.a.2 = b then contribSum (branchR m1 m2 t2) u else 0 :=
    fun b _ => listsum_toFinset _ hnd2 _
  rw [Finset.sum_congr rfl step2, Finset.sum_comm]
  have step3 : ∀ t2 ∈ m2.t_onout.toFinset,
      (∑ b ∈ m2.keys_onout.toFinset,
        if t2.a.2 = b then contribSum (branchR m1 m2 t2) u else 0)
      = contribSum (branchR m1 m2 t2) u := by
    intro t2 ht2
    rw [Finset.sum_ite_eq m2.keys_onout.toFinset t2.a.2
      (fun _ => contribSum (branchR m1 m2 t2) u)]
    exact if_pos (List.mem_toFinset.mpr (hcov t2 (List.mem_toFinset.mp ht2)))
  rw [Finset.sum_congr rfl step3, ← Finset.sum_add_distrib]
  exact Finset.sum_congr rfl
    (fun t2 _ => contribSum_branchR m1 m2 u hnd1 hnds1 t2)

theorem contribSum_delEmitR (m1 : FST St1) (m2 : FST St2)
    (u : Transition (Option St1 × Option St2))
    (hnds2 : m2.states.Nodup) (hnd1 : m1.t_onout.Nodup) :
    contribSum (delEmitR m1 m2) u =
      ∑ q2 ∈ m2.states.toFinset, ∑ t1 ∈ m1.t_onout.toFinset,
        if t1.a.2 = EPSILON ∧ delTr t1 q2 = u then m1.w t1 else 0 := by
  rw [delEmitR, contribSum_flatMap, listsum_toFinset _ hnds2]
  refine Finset.sum_congr rfl ?_
  intro q2 _
  rw [contribSum_map,
    show m1.onoutList EPSILON
      = m1.t_onout.filter (fun t => t.a.2 = EPSILON) from rfl,
    filter_mapsum, listsum_toFinset _ hnd1]
  refine Finset.sum_congr rfl ?_
  intro t1 _
  simp only [decide_eq_true_eq]
  by_cases h1 : t1.a.2 = EPSILON
  · by_cases h2 : delTr t1 q2 = u
    · rw [if_pos h1, if_pos (show (delEmit m1 t1 q2).t = u from h2),
        if_pos ⟨h1, h2⟩]
      rfl
    · rw [if_pos h1, if_neg (show ¬ (delEmit m1 t1 q2).t = u from h2),
        if_neg (fun hh => h2 hh.2)]
  · rw [if_neg h1, if_neg (fun hh => h1 hh.1)]

theorem composedL_w (m1 : FST St1) (m2 : FST St2)
    (u : Transition (Option St1 × Option St2)) :
    (composedL m1 m2).m.w u = contribSum (emitsL m1 m2) u := by
  show ((emitsL m1 m2).foldl emitStep (composeBase m1 m2)).m.w u = _
  rw [emitFold_w]
  rw [show (composeBase m1 m2).m.w u = 0 from rfl, zero_add]
  rfl

theorem composedR_w (m1 : FST St1) (m2 : FST St2)
    (u : Transition (Option St1 × Option St2)) :
    (composedR m1 m2).m.w u = contribSum (emitsR m1 m2) u := by
  show ((emitsR m1 m2).foldl emitStep (composeBase m1 m2)).m.w u = _
  rw [emitFold_w]
  rw [show (composeBase m1 m2).m.w u = 0 from rfl, zero_add]
  rfl

theorem composed_w_eq (m1 : FST St1) (m2 : FST St2)
    (h1 : m1.IndexWF) (h2 : m2.IndexWF)
    (u : Transition (Option St1 × Option St2)) :
    (composedL m1 m2).m.w u = (composedR m1 m2).m.w u := by
  obtain ⟨hnds1, hndf1, honin1, honout1, _, _, hcovin1, hcovout1, hkin1,
    hkout1⟩ := h1
  obtain ⟨hnds2, hndf2, honin2, honout2, _, _, hcovin2, hcovout2, hkin2,
    hkout2⟩ := h2
  rw [composedL_w, composedR_w, emitsL, emitsR, contribSum_append,
    contribSum_append]
  rw [contribSum_pairsEmitL m1 m2 u (honin1 ▸ hndf1) hkin1 (honin2 ▸ hndf2)
    hnds2 (honin1 ▸ hcovin1)]
  rw [contribSum_insEmitL m1 m2 u hnds1 (honin2 ▸ hndf2)]
  rw [contribSum_pairsEmitR m1 m2 u (honout2 ▸ hndf2) hkout2
    (honout1 ▸ hndf1) hnds1 (honout2 ▸ hcovout2)]
  rw [contribSum_delEmitR m1 m2 u hnds2 (honout1 ▸ hndf1)]
  rw [honin1, honin2, honout1, honout2]
  have hP : (∑ t1 ∈ m1.t_from.toFinset, ∑ t2 ∈ m2.t_from.toFinset,
      if t1.a.2 ≠ EPSILON ∧ t2.a.1 = t1.a.2 ∧ pairTr t1 t2 = u then
        m1.w t1 * m2.w t2 else 0)
      = ∑ t2 ∈ m2.t_from.toFinset, ∑ t1 ∈ m1.t_from.toFinset,
      if t2.a.1 ≠ EPSILON ∧ t1.a.2 = t2.a.1 ∧ pairTr t1 t2 = u then
        m1.w t1 * m2.w t2 else 0 := by
    rw [Finset.sum_comm]
    refine Finset.sum_congr rfl ?_
    intro t2 _
    refine Finset.sum_congr rfl ?_
    intro t1 _
    refine if_congr ?_ rfl rfl
    constructor
    · rintro ⟨ha, hb, hc⟩
      exact ⟨fun hh => ha (hb.symm.trans hh), hb.symm, hc⟩
    · rintro ⟨ha, hb, hc⟩
      exact ⟨fun hh => ha (hb.symm.trans hh), hb.symm, hc⟩
  have hD : (∑ t1 ∈ m1.t_from.toFinset, ∑ q2 ∈ m2.states.toFinset,
      if t1.a.2 = EPSILON ∧ delTr t1 q2 = u then m1.w t1 else 0)
      = ∑ q2 ∈ m2.states.toFinset, ∑ t1 ∈ m1.t_from.toFinset,
      if t1.a.2 = EPSILON ∧ delTr t1 q2 = u then m1.w t1 else 0 :=
    Finset.sum_comm
  have hI : (∑ q1 ∈ m1.states.toFinset, ∑ t2 ∈ m2.t_from.toFinset,
      if t2.a.1 = EPSILON ∧ insTr q1 t2 = u then m2.w t2 else 0)
      = ∑ t2 ∈ m2.t_from.toFinset, ∑ q1 ∈ m1.states.toFinset,
      if t2.a.1 = EPSILON ∧ insTr q1 t2 = u then m2.w t2 else 0 :=
    Finset.sum_comm
  rw [hP, hD, hI]
  ring

theorem mem_branchL {m1 : FST St1} {m2 : FST St2} {t1 : Transition St1}
    {e : Emit St1 St2} :
    e ∈ branchL m1 m2 t1 ↔
      (t1.a.2 ≠ EPSILON ∧ ∃ t2 ∈ m2.t_onin, t2.a.1 = t1.a.2 ∧
        e = pairEmit m1 m2 t1 t2) ∨
      (t1.a.2 = EPSILON ∧ ∃ q2 ∈ m2.states, e = delEmit m1 t1 q2) := by
  by_cases hte : t1.a.2 = EPSILON
  · rw [branchL, if_neg (fun h => h hte)]
    simp only [List.mem_map]
    constructor
    · rintro ⟨q2, hq2, rfl⟩
      exact Or.inr ⟨hte, q2, hq2, rfl⟩
    · rintro (⟨ha, _⟩ | ⟨_, q2, hq2, rfl⟩)
      · exact absurd hte ha
      · exact ⟨q2, hq2, rfl⟩
  · rw [branchL, if_pos hte]
    simp only [List.mem_map, FST.mem_oninList]
    constructor
    · rintro ⟨t2, ⟨ht2, hin⟩, rfl⟩
      exact Or.inl ⟨hte, t2, ht2, hin, rfl⟩
    · rintro (⟨_, t2, ht2, hin, rfl⟩ | ⟨ha, _⟩)
      · exact ⟨t2, ⟨ht2, hin⟩, rfl⟩
      · exact absurd ha hte

theorem mem_pairsEmitL {m1 : FST St1} {m2 : FST St2} {e : Emit St1 St2}
    (hcov : ∀ t ∈ m1.t_onin, t.a.1 ∈ m1.keys_onin) :
    e ∈ pairsEmitL m1 m2 ↔ ∃ t1 ∈ m1.t_onin, e ∈ branchL m1 m2 t1 := by
  simp only [pairsEmitL, List.mem_flatMap, FST.mem_oninList]
  constructor
  · rintro ⟨a, _, t1, ⟨ht1, _⟩, he⟩
    exact ⟨t1, ht1, he⟩
  · rintro ⟨t1, ht1, he⟩
    exact ⟨t1.a.1, hcov t1 ht1, t1, ⟨ht1, rfl⟩, he⟩

theorem mem_insEmitL {m1 : FST St1} {m2 : FST St2} {e : Emit St1 St2} :
    e ∈ insEmitL m1 m2 ↔
      ∃ q1 ∈ m1.states, ∃ t2 ∈ m2.t_onin, t2.a.1 = EPSILON ∧
        e = insEmit m2 q1 t2 := by
  simp only [insEmitL, List.mem_flatMap, List.mem_map, FST.mem_oninList]
  constructor
  · rintro ⟨q1, hq1, t2, ⟨ht2, hin⟩, rfl⟩
    exact ⟨q1, hq1, t2, ht2, hin, rfl⟩
  · rintro ⟨q1, hq1, t2, ht2, hin, rfl⟩
    exact ⟨q1, hq1, t2, ⟨ht2, hin⟩, rfl⟩

theorem mem_emitsL {m1 : FST St1} {m2 : FST St2} {e : Emit St1 St2}
    (hcov : ∀ t ∈ m1.t_onin, t.a.1 ∈ m1.keys_onin) :
    e ∈ emitsL m1 m2 ↔
      (∃ t1 ∈ m1.t_onin, ∃ t2 ∈ m2.t_onin, t1.a.2 ≠ EPSILON ∧
        t2.a.1 = t1.a.2 ∧ e = pairEmit m1 m2 t1 t2) ∨
      (∃ t1 ∈ m1.t_onin, ∃ q2 ∈ m2.states, t1.a.2 = EPSILON ∧
        e = delEmit m1 t1 q2) ∨
      (∃ q1 ∈ m1.states, ∃ t2 ∈ m2.t_onin, t2.a.1 = EPSILON ∧
        e = insEmit m2 q1 t2) := by
  rw [emitsL, List.mem_append, mem_pairsEmitL hcov, mem_insEmitL]
  constructor
  · rintro (⟨t1, ht1, hbr⟩ | hins)
    · rcases mem_branchL.mp hbr with ⟨ha, t2, ht2, hin, he⟩ |
        ⟨ha, q2, hq2, he⟩
      · exact Or.inl ⟨t1, ht1, t2, ht2, ha, hin, he⟩
      · exact Or.inr (Or.inl ⟨t1, ht1, q2, hq2, ha, he⟩)
    · exact Or.inr (Or.inr hins)
  · rintro (⟨t1, ht1, t2, ht2, ha, hin, he⟩ | ⟨t1, ht1, q2, hq2, ha, he⟩ |
      hins)
    · exact Or.inl ⟨t1, ht1, mem_branchL.mpr (Or.inl ⟨ha, t2, ht2, hin, he⟩)⟩
    · exact Or.inl ⟨t1, ht1, mem_branchL.mpr (Or.inr ⟨ha, q2, hq2, he⟩)⟩
    · exact Or.inr hins

theorem mem_branchR {m1 : FST St1} {m2 : FST St2} {t2 : Transition St2}
    {e : Emit St1 St2} :
    e ∈ branchR m1 m2 t2 ↔
      (t2.a.1 ≠ EPSILON ∧ ∃ t1 ∈ m1.t_onout, t1.a.2 = t2.a.1 ∧
        e = pairEmit m1 m2 t1 t2) ∨
      (t2.a.1 = EPSILON ∧ ∃ q1 ∈ m1.states, e = insEmit m2 q1 t2) := by
  by_cases hte : t2.a.1 = EPSILON
  · rw [branchR, if_neg (fun h => h hte)]
    simp only [List.mem_map]
    constructor
    · rintro ⟨q1, hq1, rfl⟩
      exact Or.inr ⟨hte, q1, hq1, rfl⟩
    · rintro (⟨ha, _⟩ | ⟨_, q1, hq1, rfl⟩)
      · exact absurd hte ha
      · exact ⟨q1, hq1, rfl⟩
  · rw [branchR, if_pos hte]
    simp only [List.mem_map, FST.mem_onoutList]
    constructor
    · rintro ⟨t1, ⟨ht1, hout⟩, rfl⟩
      exact Or.inl ⟨hte, t1, ht1, hout, rfl⟩
    · rintro (⟨_, t1, ht1, hout, rfl⟩ | ⟨ha, _⟩)
      · exact ⟨t1, ⟨ht1, hout⟩, rfl⟩
      · exact absurd ha hte

theorem mem_pairsEmitR {m1 : FST St1} {m2 : FST St2} {e : Emit St1 St2}
    (hcov : ∀ t ∈ m2.t_onout, t.a.2 ∈ m2.keys_onout) :
    e ∈ pairsEmitR m1 m2 ↔ ∃ t2 ∈ m2.t_onout, e ∈ branchR m1 m2 t2 := by
  simp only [pairsEmitR, List.mem_flatMap, FST.mem_onoutList]
  constructor
  · rintro ⟨b, _, t2, ⟨ht2, _⟩, he⟩
    exact ⟨t2, ht2, he⟩
  · rintro ⟨t2, ht2, he⟩
    exact ⟨t2.a.2, hcov t2 ht2, t2, ⟨ht2, rfl⟩, he⟩

theorem mem_delEmitR {m1 : FST St1} {m2 : FST St2} {e : Emit St1 St2} :
    e ∈ delEmitR m1 m2 ↔
      ∃ q2 ∈ m2.states, ∃ t1 ∈ m1.t_onout, t1.a.2 = EPSILON ∧
        e = delEmit m1 t1 q2 := by
  simp only [delEmitR, List.mem_flatMap, List.mem_map, FST.mem_onoutList]
  constructor
  · rintro ⟨q2, hq2, t1, ⟨ht1, hout⟩, rfl⟩
    exact ⟨q2, hq2, t1, ht1, hout, rfl⟩
  · rintro ⟨q2, hq2, t1, ht1, hout, rfl⟩
    exact ⟨q2, hq2, t1, ⟨ht1, hout⟩, rfl⟩

theorem mem_emitsR {m1 : FST St1} {m2 : FST St2} {e : Emit St1 St2}
    (hcov : ∀ t ∈ m2.t_onout, t.a.2 ∈ m2.keys_onout) :
    e ∈ emitsR m1 m2 ↔
      (∃ t2 ∈ m2.t_onout, ∃ t1 ∈ m1.t_onout, t2.a.1 ≠ EPSILON ∧
        t1.a.2 = t2.a.1 ∧ e = pairEmit m1 m2 t1 t2) ∨
      (∃ t2 ∈ m2.t_onout, ∃ q1 ∈ m1.states, t2.a.1 = EPSILON ∧
        e = insEmit m2 q1 t2) ∨
      (∃ q2 ∈ m2.states, ∃ t1 ∈ m1.t_onout, t1.a.2 = EPSILON ∧
        e = delEmit m1 t1 q2) := by
  rw [emitsR, List.mem_append, mem_pairsEmitR hcov, mem_delEmitR]
  constructor
  · rintro (⟨t2, ht2, hbr⟩ | hdel)
    · rcases mem_branchR.mp hbr with ⟨ha, t1, ht1, hout, he⟩ |
        ⟨ha, q1, hq1, he⟩
      · exact Or.inl ⟨t2, ht2, t1, ht1, ha, hout, he⟩
      · exact Or.inr (Or.inl ⟨t2, ht2, q1, hq1, ha, he⟩)
    · exact Or.inr (Or.inr hdel)
  · rintro (⟨t2, ht2, t1, ht1, ha, hout, he⟩ | ⟨t2, ht2, q1, hq1, ha, he⟩ |
      hdel)
    · exact Or.inl ⟨t2, ht2, mem_branchR.mpr
        (Or.inl ⟨ha, t1, ht1, hout, he⟩)⟩
    · exact Or.inl ⟨t2, ht2, mem_branchR.mpr (Or.inr ⟨ha, q1, hq1, he⟩)⟩
    · exact Or.inr hdel

theorem mem_emits_iff (m1 : FST St1) (m2 : FST St2)
    (h1 : m1.IndexWF) (h2 : m2.IndexWF) (e : Emit St1 St2) :
    e ∈ emitsL m1 m2 ↔ e ∈ emitsR m1 m2 := by
  obtain ⟨_, _, honin1, honout1, _, hend1, hcovin1, hcovout1, _, _⟩ := h1
  obtain ⟨_, _, honin2, honout2, _, hend2, hcovin2, hcovout2, _, _⟩ := h2
  rw [mem_emitsL (honin1 ▸ hcovin1), mem_emitsR (honout2 ▸ hcovout2),
    honin1, honin2, honout1, honout2]
  constructor
  · rintro (⟨t1, ht1, t2, ht2, ha, hin, he⟩ | ⟨t1, ht1, q2, hq2, ha, he⟩ |
      ⟨q1, hq1, t2, ht2, ha, he⟩)
    · exact Or.inl ⟨t2, ht2, t1, ht1, fun hh => ha (hin.symm.trans hh),
        hin.symm, he⟩
    · exact Or.inr (Or.inr ⟨q2, hq2, t1, ht1, ha, he⟩)
    · exact Or.inr (Or.inl ⟨t2, ht2, q1, hq1, ha, he⟩)
  · rintro (⟨t2, ht2, t1, ht1, ha, hout, he⟩ | ⟨t2, ht2, q1, hq1, ha, he⟩ |
      ⟨q2, hq2, t1, ht1, ha, he⟩)
    · exact Or.inl ⟨t1, ht1, t2, ht2, fun hh => ha (hout.symm.trans hh),
        hout.symm, he⟩
    · exact Or.inr (Or.inr ⟨q1, hq1, t2, ht2, ha, he⟩)
    · exact Or.inr (Or.inl ⟨t1, ht1, q2, hq2, ha, he⟩)

theorem composedL_mem_t_from (m1 : FST St1) (m2 : FST St2)
    (u : Transition (Option St1 × Option St2)) :
    u ∈ (composedL m1 m2).m.t_from ↔ ∃ e ∈ emitsL m1 m2, e.t = u := by
  show u ∈ ((emitsL m1 m2).foldl emitStep (composeBase m1 m2)).m.t_from ↔ _
  rw [emitFold_mem_from]
  simp [composeBase, FST.set_start, FST.add_state, FST.empty]

theorem composedL_mem_t_to (m1 : FST St1) (m2 : FST St2)
    (u : Transition (Option St1 × Option St2)) :
    u ∈ (composedL m1 m2).m.t_to ↔ ∃ e ∈ emitsL m1 m2, e.t = u := by
  show u ∈ ((emitsL m1 m2).foldl emitStep (composeBase m1 m2)).m.t_to ↔ _
  rw [emitFold_mem_to]
  simp [composeBase, FST.set_start, FST.add_state, FST.empty]

theorem composedL_mem_t_onin (m1 : FST St1) (m2 : FST St2)
    (u : Transition (Option St1 × Option St2)) :
    u ∈ (composedL m1 m2).m.t_onin ↔ ∃ e ∈ emitsL m1 m2, e.t = u := by
  show u ∈ ((emitsL m1 m2).foldl emitStep (composeBase m1 m2)).m.t_onin ↔ _
  rw [emitFold_mem_onin]
  simp [composeBase, FST.set_start, FST.add_state, FST.empty]

theorem composedL_mem_t_onout (m1 : FST St1) (m2 : FST St2)
    (u : Transition (Option St1 × Option St2)) :
    u ∈ (composedL m1 m2).m.t_onout ↔ ∃ e ∈ emitsL m1 m2, e.t = u := by
  show u ∈ ((emitsL m1 m2).foldl emitStep (composeBase m1 m2)).m.t_onout ↔ _
  rw [emitFold_mem_onout]
  simp [composeBase, FST.set_start, FST.add_state, FST.empty]

theorem composedL_mem_states (m1 : FST St1) (m2 : FST St2)
    (x : Option St1 × Option St2) :
    x ∈ (composedL m1 m2).m.states ↔
      x = (m1.accept, m2.accept) ∨ x = (m1.start, m2.start) ∨
      ∃ e ∈ emitsL m1 m2, e.t.q = x ∨ e.t.r = x := by
  show x ∈ sinsert (m1.accept, m2.accept)
    ((emitsL m1 m2).foldl emitStep (composeBase m1 m2)).m.states ↔ _
  rw [mem_sinsert, emitFold_mem_states]
  simp [composeBase, FST.set_start, FST.add_state, FST.empty, sinsert]

theorem composedL_mem_inAl (m1 : FST St1) (m2 : FST St2) (a : String) :
    a ∈ (composedL m1 m2).m.input_alphabet ↔
      ∃ e ∈ emitsL m1 m2, e.t.a.1 = a := by
  show a ∈ ((emitsL m1 m2).foldl emitStep
    (composeBase m1 m2)).m.input_alphabet ↔ _
  rw [emitFold_mem_inAl]
  simp [composeBase, FST.set_start, FST.add_state, FST.empty]

theorem composedL_mem_outAl (m1 : FST St1) (m2 : FST St2) (b : String) :
    b ∈ (composedL m1 m2).m.output_alphabet ↔
      ∃ e ∈ emitsL m1 m2, e.t.a.2 = b := by
  show b ∈ ((emitsL m1 m2).foldl emitStep
    (composeBase m1 m2)).m.output_alphabet ↔ _
  rw [emitFold_mem_outAl]
  simp [composeBase, FST.set_start, FST.add_state, FST.empty]

theorem composedR_mem_t_from (m1 : FST St1) (m2 : FST St2)
    (u : Transition (Option St1 × Option St2)) :
    u ∈ (composedR m1 m2).m.t_from ↔ ∃ e ∈ emitsR m1 m2, e.t = u := by
  show u ∈ ((emitsR m1 m2).foldl emitStep (composeBase m1 m2)).m.t_from ↔ _
  rw [emitFold_mem_from]
  simp [composeBase, FST.set_start, FST.add_state, FST.empty]

theorem composedR_mem_t_to (m1 : FST St1) (m2 : FST St2)
    (u : Transition (Option St1 × Option St2)) :
    u ∈ (composedR m1 m2).m.t_to ↔ ∃ e ∈ emitsR m1 m2, e.t = u := by
  show u ∈ ((emitsR m1 m2).foldl emitStep (composeBase m1 m2)).m.t_to ↔ _
  rw [emitFold_mem_to]
  simp [composeBase, FST.set_start, FST.add_state, FST.empty]

theorem composedR_mem_t_onin (m1 : FST St1) (m2 : FST St2)
    (u : Transition (Option St1 × Option St2)) :
    u ∈ (composedR m1 m2).m.t_onin ↔ ∃ e ∈ emitsR m1 m2, e.t = u := by
  show u ∈ ((emitsR m1 m2).foldl emitStep (composeBase m1 m2)).m.t_onin ↔ _
  rw [emitFold_mem_onin]
  simp [composeBase, FST.set_start, FST.add_state, FST.empty]

theorem composedR_mem_t_onout (m1 : FST St1) (m2 : FST St2)
    (u : Transition (Option St1 × Option St2)) :
    u ∈ (composedR m1 m2).m.t_onout ↔ ∃ e ∈ emitsR m1 m2, e.t = u := by
  show u ∈ ((emitsR m1 m2).foldl emitStep (composeBase m1 m2)).m.t_onout ↔ _
  rw [emitFold_mem_onout]
  simp [composeBase, FST.set_start, FST.add_state, FST.empty]

theorem composedR_mem_states (m1 : FST St1) (m2 : FST St2)
    (x : Option St1 × Option St2) :
    x ∈ (composedR m1 m2).m.states ↔
      x = (m1.accept, m2.accept) ∨ x = (m1.start, m2.start) ∨
      ∃ e ∈ emitsR m1 m2, e.t.q = x ∨ e.t.r = x := by
  show x ∈ sinsert (m1.accept, m2.accept)
    ((emitsR m1 m2).foldl emitStep (composeBase m1 m2)).m.states ↔ _
  rw [mem_sinsert, emitFold_mem_states]
  simp [composeBase, FST.set_start, FST.add_state, FST.empty, sinsert]

theorem composedR_mem_inAl (m1 : FST St1) (m2 : FST St2) (a : String) :
    a ∈ (composedR m1 m2).m.input_alphabet ↔
      ∃ e ∈ emitsR m1 m2, e.t.a.1 = a := by
  show a ∈ ((emitsR m1 m2).foldl emitStep
    (composeBase m1 m2)).m.input_alphabet ↔ _
  rw [emitFold_mem_inAl]
  simp [composeBase, FST.set_start, FST.add_state, FST.empty]

theorem composedR_mem_outAl (m1 : FST St1) (m2 : FST St2) (b : String) :
    b ∈ (composedR m1 m2).m.output_alphabet ↔
      ∃ e ∈ emitsR m1 m2, e.t.a.2 = b := by
  show b ∈ ((emitsR m1 m2).foldl emitStep
    (composeBase m1 m2)).m.output_alphabet ↔ _
  rw [emitFold_mem_outAl]
  simp [composeBase, FST.set_start, FST.add_state, FST.empty]

theorem composedL_start (m1 : FST St1) (m2 : FST St2) :
    (composedL m1 m2).m.start = some (m1.start, m2.start) := by
  show ((emitsL m1 m2).foldl emitStep (composeBase m1 m2)).m.start = _
  rw [emitFold_start]
  rfl

theorem composedR_start (m1 : FST St1) (m2 : FST St2) :
    (composedR m1 m2).m.start = some (m1.start, m2.start) := by
  show ((emitsR m1 m2).foldl emitStep (composeBase m1 m2)).m.start = _
  rw [emitFold_start]
  rfl

theorem emits_exists_iff {m1 : FST St1} {m2 : FST St2}
    (hiff : ∀ e, e ∈ emitsL m1 m2 ↔ e ∈ emitsR m1 m2)
    (P : Emit St1 St2 → Prop) :
    (∃ e ∈ emitsL m1 m2, P e) ↔ ∃ e ∈ emitsR m1 m2, P e := by
  constructor
  · rintro ⟨e, he, hp⟩
    exact ⟨e, (hiff e).mp he, hp⟩
  · rintro ⟨e, he, hp⟩
    exact ⟨e, (hiff e).mpr he, hp⟩

theorem eOk_compose_left (m1 : FST St1) (m2 : FST St2) :
    eOk (compose_left m1 m2) = !(m1deletesL m1 && m2insertsL m1 m2) := by
  cases hB : (m1deletesL m1 && m2insertsL m1 m2) with
  | true => simp [compose_left, hB, eOk]
  | false => simp [compose_left, hB, eOk]

theorem eOk_compose_right (m1 : FST St1) (m2 : FST St2) :
    eOk (compose_right m1 m2) = !(m1deletesR m1 m2 && m2insertsR m2) := by
  cases hB : (m1deletesR m1 m2 && m2insertsR m2) with
  | true => simp [compose_right, hB, eOk]
  | false => simp [compose_right, hB, eOk]

theorem flags_left_iff (m1 : FST St1) (m2 : FST St2)
    (honin1 : m1.t_onin = m1.t_from) (honin2 : m2.t_onin = m2.t_from)
    (hcovin1 : ∀ t ∈ m1.t_from, t.a.1 ∈ m1.keys_onin)
    (hend1 : ∀ t ∈ m1.t_from, t.q ∈ m1.states ∧ t.r ∈ m1.states) :
    (m1deletesL m1 && m2insertsL m1 m2) = true ↔
      (∃ t1 ∈ m1.t_from, t1.a.2 = EPSILON) ∧
      (∃ t2 ∈ m2.t_from, t2.a.1 = EPSILON) := by
  rw [Bool.and_eq_true, m1deletesL_iff (honin1 ▸ hcovin1), m2insertsL_iff,
    honin1, honin2]
  constructor
  · rintro ⟨hdel, _, hins⟩
    exact ⟨hdel, hins⟩
  · rintro ⟨⟨t1, ht1, hdel⟩, hins⟩
    refine ⟨⟨t1, ht1, hdel⟩, ?_, hins⟩
    intro hnil
    have := (hend1 t1 ht1).1
    rw [hnil] at this
    exact List.not_mem_nil _ this

theorem flags_right_iff (m1 : FST St1) (m2 : FST St2)
    (honout1 : m1.t_onout = m1.t_from) (honout2 : m2.t_onout = m2.t_from)
    (hcovout2 : ∀ t ∈ m2.t_from, t.a.2 ∈ m2.keys_onout)
    (hend2 : ∀ t ∈ m2.t_from, t.q ∈ m2.states ∧ t.r ∈ m2.states) :
    (m1deletesR m1 m2 && m2insertsR m2) = true ↔
      (∃ t1 ∈ m1.t_from, t1.a.2 = EPSILON) ∧
      (∃ t2 ∈ m2.t_from, t2.a.1 = EPSILON) := by
  rw [Bool.and_eq_true, m2insertsR_iff (honout2 ▸ hcovout2), m1deletesR_iff,
    honout1, honout2]
  constructor
  · rintro ⟨⟨_, hdel⟩, hins⟩
    exact ⟨hdel, hins⟩
  · rintro ⟨hdel, t2, ht2, hins⟩
    refine ⟨⟨?_, hdel⟩, t2, ht2, hins⟩
    intro hnil
    have := (hend2 t2 ht2).1
    rw [hnil] at this
    exact List.not_mem_nil _ this

theorem compose_raise_eq (m1 : FST St1) (m2 : FST St2)
    (h1 : m1.IndexWF) (h2 : m2.IndexWF) :
    eOk (compose_left m1 m2) = eOk (compose_right m1 m2) := by
  obtain ⟨_, _, honin1, honout1, _, hend1, hcovin1, _, _, _⟩ := h1
  obtain ⟨_, _, honin2, honout2, _, hend2, _, hcovout2, _, _⟩ := h2
  rw [eOk_compose_left, eOk_compose_right]
  have hL := flags_left_iff m1 m2 honin1 honin2 hcovin1 hend1
  have hR := flags_right_iff m1 m2 honout1 honout2 hcovout2 hend2
  cases hA : (m1deletesL m1 && m2insertsL m1 m2) with
  | true => rw [hR.mpr (hL.mp hA)]
  | false =>
      cases hB : (m1deletesR m1 m2 && m2insertsR m2) with
      | true => exact absurd (hL.mpr (hR.mp hB)) (by simp [hA])
      | false => rfl

/-- C5 (amended).  For index-well-formed automata, the two composition
variants are equivalent: they raise the conflict error in exactly the same
cases, and the automata they build have the same start and accept states,
the same set of states, the same set of transitions in each of the four
indices, the same alphabets, and the same per-transition weights.  (On
automata with transitions registered by reweighting but no states, the
variants can disagree on raising; enumeration order of the stored lists
also differs, which is invisible to the set-level results here.) -/
theorem compose_variants_agree (m1 : FST St1) (m2 : FST St2)
    (h1 : m1.IndexWF) (h2 : m2.IndexWF) :
    eOk (compose_left m1 m2) = eOk (compose_right m1 m2) ∧
    (composedL m1 m2).m.start = (composedR m1 m2).m.start ∧
    (composedL m1 m2).m.accept = (composedR m1 m2).m.accept ∧
    (∀ x, x ∈ (composedL m1 m2).m.states ↔ x ∈ (composedR m1 m2).m.states) ∧
    (∀ u, u ∈ (composedL m1 m2).m.t_from ↔
      u ∈ (composedR m1 m2).m.t_from) ∧
    (∀ u, u ∈ (composedL m1 m2).m.t_to ↔ u ∈ (composedR m1 m2).m.t_to) ∧
    (∀ u, u ∈ (composedL m1 m2).m.t_onin ↔
      u ∈ (composedR m1 m2).m.t_onin) ∧
    (∀ u, u ∈ (composedL m1 m2).m.t_onout ↔
      u ∈ (composedR m1 m2).m.t_onout) ∧
    (∀ a, a ∈ (composedL m1 m2).m.input_alphabet ↔
      a ∈ (composedR m1 m2).m.input_alphabet) ∧
    (∀ b, b ∈ (composedL m1 m2).m.output_alphabet ↔
      b ∈ (composedR m1 m2).m.output_alphabet) ∧
    (∀ u, (composedL m1 m2).m.w u = (composedR m1 m2).m.w u) := by
  have hiff := mem_emits_iff m1 m2 h1 h2
  refine ⟨compose_raise_eq m1 m2 h1 h2, ?_, rfl, ?_, ?_, ?_, ?_, ?_, ?_, ?_,
    composed_w_eq m1 m2 h1 h2⟩
  · rw [composedL_start, composedR_start]
  · intro x
    rw [composedL_mem_states, composedR_mem_states,
      emits_exists_iff hiff (fun e => e.t.q = x ∨ e.t.r = x)]
  · intro u
    rw [composedL_mem_t_from, composedR_mem_t_from,
      emits_exists_iff hiff (fun e => e.t = u)]
  · intro u
    rw [composedL_mem_t_to, composedR_mem_t_to,
      emits_exists_iff hiff (fun e => e.t = u)]
  · intro u
    rw [composedL_mem_t_onin, composedR_mem_t_onin,
      emits_exists_iff hiff (fun e => e.t = u)]
  · intro u
    rw [composedL_mem_t_onout, composedR_mem_t_onout,
      emits_exists_iff hiff (fun e => e.t = u)]
  · intro a
    rw [composedL_mem_inAl, composedR_mem_inAl,
      emits_exists_iff hiff (fun e => e.t.a.1 = a)]
  · intro b
    rw [composedL_mem_outAl, composedR_mem_outAl,
      emits_exists_iff hiff (fun e => e.t.a.2 = b)]

/-- C5 witness: the amended equivalence applied to a concrete well-formed
pair (here one where both variants raise). -/
theorem compose_variants_agree_witness :
    c4wm1.IndexWF ∧ c4wm2.IndexWF ∧
      eOk (compose_left c4wm1 c4wm2) = eOk (compose_right c4wm1 c4wm2) :=
  ⟨by decide, by decide,
   (compose_variants_agree c4wm1 c4wm2 (by decide) (by decide)).1⟩

/-! ### Claim C1: composition provenance -/

/-- All origin pairs whose emission produces composed transition `u`, in
emission order (with repetition-free identity: each source pair is
enumerated once per loop nest). -/
def osL (m1 : FST St1) (m2 : FST St2)
    (u : Transition (Option St1 × Option St2)) :
    List (Option (Transition St1) × Option (Transition St2)) :=
  ((emitsL m1 m2).filter (fun e => e.t = u)).map Emit.org

/-- The multiplicative-evaluator contribution of one origin pair:
`[weight(t1) if present else 1] * [weight(t2) if present else 1]`. -/
def contrib (m1 : FST St1) (m2 : FST St2)
    (o : Option (Transition St1) × Option (Transition St2)) : ℚ :=
  (match o.1 with
   | some t1 => m1.w t1
   | none => 1) *
  (match o.2 with
   | some t2 => m2.w t2
   | none => 1)

/-- Whether an origin pair is produced, for target `u`, by the emission rule
of the corresponding composition branch. -/
def ruleProduces (m1 : FST St1) (m2 : FST St2)
    (o : Option (Transition St1) × Option (Transition St2))
    (u : Transition (Option St1 × Option St2)) : Prop :=
  match o with
  | (some t1, some t2) => t1 ∈ m1.t_onin ∧ t2 ∈ m2.t_onin ∧
      t1.a.2 ≠ EPSILON ∧ t2.a.1 = t1.a.2 ∧ u = pairTr t1 t2
  | (some t1, none) => t1 ∈ m1.t_onin ∧ t1.a.2 = EPSILON ∧
      ∃ q2 ∈ m2.states, u = delTr t1 q2
  | (none, some t2) => t2 ∈ m2.t_onin ∧ t2.a.1 = EPSILON ∧
      ∃ q1 ∈ m1.states, u = insTr q1 t2
  | (none, none) => False

instance (m1 : FST St1) (m2 : FST St2)
    (o : Option (Transition St1) × Option (Transition St2))
    (u : Transition (Option St1 × Option St2)) :
    Decidable (ruleProduces m1 m2 o u) := by
  rcases o with ⟨o1, o2⟩
  cases o1 with
  | none =>
      cases o2 with
      | none => exact isFalse (fun h => h)
      | some t2 => exact inferInstanceAs (Decidable (t2 ∈ m2.t_onin ∧
          t2.a.1 = EPSILON ∧ ∃ q1 ∈ m1.states, u = insTr q1 t2))
  | some t1 =>
      cases o2 with
      | none => exact inferInstanceAs (Decidable (t1 ∈ m1.t_onin ∧
          t1.a.2 = EPSILON ∧ ∃ q2 ∈ m2.states, u = delTr t1 q2))
      | some t2 => exact inferInstanceAs (Decidable (t1 ∈ m1.t_onin ∧
          t2 ∈ m2.t_onin ∧ t1.a.2 ≠ EPSILON ∧ t2.a.1 = t1.a.2 ∧
          u = pairTr t1 t2))

theorem mem_osL {m1 : FST St1} {m2 : FST St2}
    {u : Transition (Option St1 × Option St2)}
    {o : Option (Transition St1) × Option (Transition St2)} :
    o ∈ osL m1 m2 u ↔ ∃ e ∈ emitsL m1 m2, e.t = u ∧ e.org = o := by
  simp only [osL, List.mem_map, List.mem_filter, decide_eq_true_eq]
  constructor
  · rintro ⟨e, ⟨he, ht⟩, rfl⟩
    exact ⟨e, he, ht, rfl⟩
  · rintro ⟨e, he, ht, rfl⟩
    exact ⟨e, ⟨he, ht⟩, rfl⟩

theorem wt_contrib {m1 : FST St1} {m2 : FST St2}
    (hcov : ∀ t ∈ m1.t_onin, t.a.1 ∈ m1.keys_onin) :
    ∀ e ∈ emitsL m1 m2, e.wt = contrib m1 m2 e.org := by
  intro e he
  rcases (mem_emitsL hcov).mp he with ⟨t1, _, t2, _, _, _, rfl⟩ |
    ⟨t1, _, q2, _, _, rfl⟩ | ⟨q1, _, t2, _, _, rfl⟩
  · rfl
  · show m1.w t1 = m1.w t1 * 1
    rw [mul_one]
  · show m2.w t2 = 1 * m2.w t2
    rw [one_mul]

/-- C1 (amended).  For index-well-formed automata on which `compose`
succeeds, every stored composed transition `u` satisfies: the list of
origin pairs whose emission rule produces `u` is non-empty and characterized
by the branch conditions; `weight(u)` equals the sum over ALL those origin
pairs of `[w(t1) if present else 1] * [w(t2) if present else 1]`; and the
stored `composed_from` attribute is the FIRST such origin pair only (a
single pair, not a list — later collapsing origins contribute weight but
are not recorded). -/
theorem compose_provenance_characterization (m1 : FST St1) (m2 : FST St2)
    (h1 : m1.IndexWF) (h2 : m2.IndexWF)
    (hok : eOk (compose m1 m2) = true) :
    ∀ u, u ∈ (composedL m1 m2).m.t_onin →
      osL m1 m2 u ≠ [] ∧
      (composedL m1 m2).m.w u =
        ((osL m1 m2 u).map (contrib m1 m2)).sum ∧
      (composedL m1 m2).prov u = (osL m1 m2 u).head? ∧
      (∀ o, o ∈ osL m1 m2 u ↔ ruleProduces m1 m2 o u) := by
  have hcov1 : ∀ t ∈ m1.t_onin, t.a.1 ∈ m1.keys_onin := by
    obtain ⟨_, _, honin1, _, _, _, hcovin1, _, _, _⟩ := h1
    exact honin1 ▸ hcovin1
  intro u hu
  obtain ⟨e0, he0, ht0⟩ := (composedL_mem_t_onin m1 m2 u).mp hu
  refine ⟨?_, ?_, ?_, ?_⟩
  · exact List.ne_nil_of_mem
      (mem_osL.mpr ⟨e0, he0, ht0, rfl⟩)
  · rw [composedL_w, contribSum, osL, List.map_map]
    refine congrArg List.sum (List.map_congr_left ?_)
    intro e hef
    exact wt_contrib hcov1 e (List.mem_filter.mp hef).1
  · show ((emitsL m1 m2).foldl emitStep (composeBase m1 m2)).prov u = _
    rw [emitFold_prov_absent _ _ (by simp [composeBase, FST.set_start,
      FST.add_state, FST.empty]) rfl]
    rw [find?_eq_head_filter, osL, List.head?_map]
  · intro o
    rw [mem_osL]
    constructor
    · rintro ⟨e, he, htu, horg⟩
      rcases (mem_emitsL hcov1).mp he with
        ⟨t1, ht1, t2, ht2, ha, hin, rfl⟩ | ⟨t1, ht1, q2, hq2, ha, rfl⟩ |
        ⟨q1, hq1, t2, ht2, ha, rfl⟩
      · rw [← horg]
        exact ⟨ht1, ht2, ha, hin, htu.symm⟩
      · rw [← horg]
        exact ⟨ht1, ha, q2, hq2, htu.symm⟩
      · rw [← horg]
        exact ⟨ht2, ha, q1, hq1, htu.symm⟩
    · intro hrule
      rcases o with ⟨o1, o2⟩
      cases o1 with
      | none =>
          cases o2 with
          | none => exact absurd hrule (fun h => h)
          | some t2 =>
              obtain ⟨ht2, ha, q1, hq1, hue⟩ := hrule
              exact ⟨insEmit m2 q1 t2, (mem_emitsL hcov1).mpr
                (Or.inr (Or.inr ⟨q1, hq1, t2, ht2, ha, rfl⟩)), hue.symm, rfl⟩
      | some t1 =>
          cases o2 with
          | none =>
              obtain ⟨ht1, ha, q2, hq2, hue⟩ := hrule
              exact ⟨delEmit m1 t1 q2, (mem_emitsL hcov1).mpr
                (Or.inr (Or.inl ⟨t1, ht1, q2, hq2, ha, rfl⟩)), hue.symm, rfl⟩
          | some t2 =>
              obtain ⟨ht1, ht2, ha, hin, hue⟩ := hrule
              exact ⟨pairEmit m1 m2 t1 t2, (mem_emitsL hcov1).mpr
                (Or.inl ⟨t1, ht1, t2, ht2, ha, hin, rfl⟩), hue.symm, rfl⟩

/-- First `a:b` transition of the C1 counterexample. -/
def c1t1 : Transition ℕ := ⟨0, ("a", "b"), 1⟩

/-- Parallel `a:c` transition of the C1 counterexample. -/
def c1t1b : Transition ℕ := ⟨0, ("a", "c"), 1⟩

/-- `m1` of the C1 counterexample: two parallel transitions with the same
endpoints and input but different outputs, each weight 1. -/
def c1m1 : FST ℕ := (FST.empty.add_transition c1t1 1).add_transition c1t1b 1

/-- `b:d` transition of the C1 counterexample. -/
def c1t2 : Transition ℕ := ⟨0, ("b", "d"), 1⟩

/-- `c:d` transition of the C1 counterexample. -/
def c1t2b : Transition ℕ := ⟨0, ("c", "d"), 1⟩

/-- `m2` of the C1 counterexample. -/
def c1m2 : FST ℕ := (FST.empty.add_transition c1t2 1).add_transition c1t2b 1

/-- The composed transition to which both origin pairs `(c1t1, c1t2)` and
`(c1t1b, c1t2b)` collapse. -/
def c1u : Transition (Option ℕ × Option ℕ) :=
  ⟨(some 0, some 0), ("a", "d"), (some 1, some 1)⟩

/-- C1 (counterexample).  Two origin pairs produce the same composed
quadruple `c1u`, and both are rule-produced; the stored weight is the full
product-sum 2, but `composed_from` records only the first pair, whose own
contribution is `1 * 1 = 1 ≠ 2`.  So the stored provenance is a single pair
that neither contains every origin pair nor sums to the stored weight. -/
theorem compose_provenance_counterexample :
    eOk (compose c1m1 c1m2) = true ∧
    (osL c1m1 c1m2 c1u).length = 2 ∧
    ruleProduces c1m1 c1m2 (some c1t1b, some c1t2b) c1u ∧
    (composedL c1m1 c1m2).prov c1u = some (some c1t1, some c1t2) ∧
    (composedL c1m1 c1m2).m.w c1u = 2 ∧
    contrib c1m1 c1m2 (some c1t1, some c1t2) = 1 ∧
    ¬ ((1 : ℚ) = 2) := by
  refine ⟨by decide, by decide, by decide, by decide, ?_, ?_, by norm_num⟩
  · norm_num +decide [composedL, emitsL, pairsEmitL, insEmitL, branchL,
      pairEmit, delEmit, insEmit, pairTr, delTr, insTr, FST.oninList,
      emitStep, composeBase, FST.empty, FST.set_start, FST.set_accept,
      FST.add_state, FST.add_transition, sinsert, wupd, provUpd, EPSILON,
      c1m1, c1m2, c1t1, c1t1b, c1t2, c1t2b, c1u]
  · norm_num +decide [contrib, c1m1, c1m2, c1t1, c1t2, c1t1b, c1t2b,
      FST.empty, FST.add_transition, wupd]

/-- `m1` of the C1 witness: a single `a:b` transition of weight 2. -/
def c1wm1 : FST ℕ := FST.empty.add_transition ⟨0, ("a", "b"), 1⟩ 2

/-- `m2` of the C1 witness: a single `b:c` transition of weight 3. -/
def c1wm2 : FST ℕ := FST.empty.add_transition ⟨0, ("b", "c"), 1⟩ 3

/-- The composed transition of the C1 witness. -/
def c1wu : Transition (Option ℕ × Option ℕ) :=
  ⟨(some 0, some 0), ("a", "c"), (some 1, some 1)⟩

/-- C1 witness: the provenance characterization applied to a concrete
well-formed pair and stored composed transition. -/
theorem compose_provenance_characterization_witness :
    c1wm1.IndexWF ∧ eOk (compose c1wm1 c1wm2) = true ∧
    (composedL c1wm1 c1wm2).m.w c1wu =
      ((osL c1wm1 c1wm2 c1wu).map (contrib c1wm1 c1wm2)).sum :=
  ⟨by decide, by decide,
   (compose_provenance_characterization c1wm1 c1wm2 (by decide) (by decide)
     (by decide) c1wu (by decide)).2.1⟩

/-! ### `make_ngram` (fst.py lines 267-282) and claim C2

States of the n-gram skeleton are fixed-length symbol-history tuples, with
the string `STOP` itself serving as the accept state; the embedding uses a
sum-like inductive (`hist` for tuples, `final` for the `STOP` state), which
is faithful because a Python tuple never equals a string. -/

/-- A state of the n-gram skeleton. -/
inductive NgSt where
  | hist : List String → NgSt
  | final : NgSt
deriving DecidableEq

/-- `q_next = q[1:] + (a,)`. -/
def shiftHist (l : List String) (a : String) : List String :=
  l.drop 1 ++ [a]

/-- `("<s>",) * (n-1)`. -/
def startHist (n : ℕ) : List String :=
  List.replicate (n - 1) "<s>"

/-- The inner loop of `make_ngram` for one line: walk the history forward,
adding an `a:a` transition per symbol, then the final `STOP` transition
into the `STOP` state. -/
def addLine : FST NgSt → List String → List String → FST NgSt
  | m, q, [] => m.add_transition ⟨.hist q, (STOP, STOP), .final⟩ 1
  | m, q, a :: rest =>
      addLine (m.add_transition ⟨.hist q, (a, a), .hist (shiftHist q a)⟩ 1)
        (shiftHist q a) rest

/-- The untrained n-gram skeleton: start state set, all lines added, accept
state set (everything in `make_ngram` before the final `train_joint`). -/
def ngramSkeleton (data : List (List String)) (n : ℕ) : FST NgSt :=
  ((data.foldl (fun m line => addLine m (startHist n) line)
    (FST.empty.set_start (.hist (startHist n)))).set_accept .final)

/-- `make_ngram`: build the skeleton from the data, then train on the SAME
data. -/
def make_ngram (data : List (List String)) (n : ℕ) : TrainResult NgSt :=
  (ngramSkeleton data n).train_joint data

/-- The list of transitions added for one line from a given history —
also the path the training walk follows. -/
def lineTrs : List String → List String → List (Transition NgSt)
  | q, [] => [⟨.hist q, (STOP, STOP), .final⟩]
  | q, a :: rest =>
      ⟨.hist q, (a, a), .hist (shiftHist q a)⟩ :: lineTrs (shiftHist q a) rest

theorem addLine_eq_fold (line : List String) :
    ∀ (m : FST NgSt) (q : List String),
      addLine m q line
        = (lineTrs q line).foldl (fun m0 t => m0.add_transition t 1) m := by
  induction line with
  | nil => intro m q; rfl
  | cons a rest ih =>
      intro m q
      rw [addLine, lineTrs, List.foldl_cons, ih]

theorem addFold_w (L : List (Transition NgSt)) :
    ∀ (m : FST NgSt) (t : Transition NgSt),
      ((L.foldl (fun m0 u => m0.add_transition u 1) m).w t)
        = m.w t + (L.count t : ℚ) := by
  induction L with
  | nil => intro m t; simp
  | cons u rest ih =>
      intro m t
      rw [List.foldl_cons, ih]
      by_cases h : t = u
      · subst h
        simp [FST.add_transition, wupd, List.count_cons]
        ring
      · have hcount : (u :: rest).count t = rest.count t := by
          simp [List.count_cons, h, fun hh : u = t => h hh.symm]
        rw [hcount]
        simp [FST.add_transition, wupd, h]

theorem addFold_mem_from (L : List (Transition NgSt)) :
    ∀ (m : FST NgSt) (t : Transition NgSt),
      (t ∈ (L.foldl (fun m0 u => m0.add_transition u 1) m).t_from
        ↔ t ∈ m.t_from ∨ t ∈ L) := by
  induction L with
  | nil => intro m t; simp
  | cons u rest ih =>
      intro m t
      rw [List.foldl_cons, ih]
      simp only [FST.add_transition, mem_sinsert, List.mem_cons]
      tauto

theorem addFold_start (L : List (Transition NgSt)) :
    ∀ m : FST NgSt,
      (L.foldl (fun m0 u => m0.add_transition u 1) m).start = m.start := by
  induction L with
  | nil => intro m; rfl
  | cons u rest ih => intro m; rw [List.foldl_cons, ih]; rfl

theorem addFold_states_nodup (L : List (Transition NgSt)) :
    ∀ m : FST NgSt, m.states.Nodup →
      (L.foldl (fun m0 u => m0.add_transition u 1) m).states.Nodup := by
  induction L with
  | nil => intro m h; exact h
  | cons u rest ih =>
      intro m h
      rw [List.foldl_cons]
      exact ih _ (sinsert_nodup _ (sinsert_nodup _ h))

theorem addFold_from_nodup (L : List (Transition NgSt)) :
    ∀ m : FST NgSt, m.t_from.Nodup →
      (L.foldl (fun m0 u => m0.add_transition u 1) m).t_from.Nodup := by
  induction L with
  | nil => intro m h; exact h
  | cons u rest ih =>
      intro m h
      rw [List.foldl_cons]
      exact ih _ (sinsert_nodup _ h)

theorem dataFold_w (sh : List String) (data : List (List String)) :
    ∀ (m : FST NgSt) (t : Transition NgSt),
      ((data.foldl (fun m0 line => addLine m0 sh line) m).w t)
        = m.w t
          + ((data.map (fun line => (lineTrs sh line).count t)).sum : ℚ) := by
  induction data with
  | nil => intro m t; simp
  | cons line rest ih =>
      intro m t
      rw [List.foldl_cons, ih, addLine_eq_fold, addFold_w, List.map_cons,
        List.sum_cons]
      push_cast
      ring

theorem dataFold_mem_from (sh : List String) (data : List (List String)) :
    ∀ (m : FST NgSt) (t : Transition NgSt),
      (t ∈ (data.foldl (fun m0 line => addLine m0 sh line) m).t_from ↔
        t ∈ m.t_from ∨ ∃ line ∈ data, t ∈ lineTrs sh line) := by
  induction data with
  | nil => intro m t; simp
  | cons line rest ih =>
      intro m t
      rw [List.foldl_cons, ih, addLine_eq_fold, addFold_mem_from]
      simp only [List.mem_cons]
      constructor
      · rintro ((h | h) | ⟨l2, hl2, h⟩)
        · exact Or.inl h
        · exact Or.inr ⟨line, Or.inl rfl, h⟩
        · exact Or.inr ⟨l2, Or.inr hl2, h⟩
      · rintro (h | ⟨l2, (rfl | hl2), h⟩)
        · exact Or.inl (Or.inl h)
        · exact Or.inl (Or.inr h)
        · exact Or.inr ⟨l2, hl2, h⟩

theorem dataFold_start (sh : List String) (data : List (List String)) :
    ∀ m : FST NgSt,
      (data.foldl (fun m0 line => addLine m0 sh line) m).start = m.start := by
  induction data with
  | nil => intro m; rfl
  | cons line rest ih =>
      intro m
      rw [List.foldl_cons, ih, addLine_eq_fold, addFold_start]

theorem dataFold_states_nodup (sh : List String)
    (data : List (List String)) :
    ∀ m : FST NgSt, m.states.Nodup →
      (data.foldl (fun m0 line => addLine m0 sh line) m).states.Nodup := by
  induction data with
  | nil => intro m h; exact h
  | cons line rest ih =>
      intro m h
      rw [List.foldl_cons]
      exact ih _ (addLine_eq_fold line m sh ▸ addFold_states_nodup _ m h)

theorem dataFold_from_nodup (sh : List String)
    (data : List (List String)) :
    ∀ m : FST NgSt, m.t_from.Nodup →
      (data.foldl (fun m0 line => addLine m0 sh line) m).t_from.Nodup := by
  induction data with
  | nil => intro m h; exact h
  | cons line rest ih =>
      intro m h
      rw [List.foldl_cons]
      exact ih _ (addLine_eq_fold line m sh ▸ addFold_from_nodup _ m h)

theorem skel_w (data : List (List String)) (n : ℕ) (t : Transition NgSt) :
    (ngramSkeleton data n).w t =
      ((data.map (fun line =>
        (lineTrs (startHist n) line).count t)).sum : ℚ) := by
  show ((data.foldl (fun m0 line => addLine m0 (startHist n) line)
    (FST.empty.set_start (.hist (startHist n)))).w t) = _
  rw [dataFold_w]
  simp [FST.empty, FST.set_start, FST.add_state]

theorem skel_mem_from (data : List (List String)) (n : ℕ)
    (t : Transition NgSt) :
    t ∈ (ngramSkeleton data n).t_from ↔
      ∃ line ∈ data, t ∈ lineTrs (startHist n) line := by
  show t ∈ (data.foldl (fun m0 line => addLine m0 (startHist n) line)
    (FST.empty.set_start (.hist (startHist n)))).t_from ↔ _
  rw [dataFold_mem_from]
  simp [FST.empty, FST.set_start, FST.add_state]

theorem skel_start (data : List (List String)) (n : ℕ) :
    (ngramSkeleton data n).start = some (.hist (startHist n)) := by
  show (data.foldl (fun m0 line => addLine m0 (startHist n) line)
    (FST.empty.set_start (.hist (startHist n)))).start = _
  rw [dataFold_start]
  rfl

theorem skel_states_nodup (data : List (List String)) (n : ℕ) :
    (ngramSkeleton data n).states.Nodup := by
  show (sinsert NgSt.final (data.foldl
    (fun m0 line => addLine m0 (startHist n) line)
    (FST.empty.set_start (.hist (startHist n)))).states).Nodup
  refine sinsert_nodup _ (dataFold_states_nodup _ _ _ ?_)
  simp [FST.empty, FST.set_start, FST.add_state, sinsert]

theorem skel_from_nodup (data : List (List String)) (n : ℕ) :
    (ngramSkeleton data n).t_from.Nodup := by
  show ((data.foldl (fun m0 line => addLine m0 (startHist n) line)
    (FST.empty.set_start (.hist (startHist n)))).t_from).Nodup
  refine dataFold_from_nodup _ _ _ ?_
  simp [FST.empty, FST.set_start, FST.add_state]

theorem lineTrs_shape :
    ∀ (line q0 : List String) (t : Transition NgSt), t ∈ lineTrs q0 line →
      (∃ a l, a ∈ line ∧
        t = ⟨.hist l, (a, a), .hist (shiftHist l a)⟩) ∨
      (∃ l, t = ⟨.hist l, (STOP, STOP), .final⟩) := by
  intro line
  induction line with
  | nil =>
      intro q0 t ht
      rcases List.mem_singleton.mp ht with rfl
      exact Or.inr ⟨q0, rfl⟩
  | cons a rest ih =>
      intro q0 t ht
      rcases List.mem_cons.mp ht with rfl | hmem
      · exact Or.inl ⟨a, q0, List.mem_cons_self a rest, rfl⟩
      · rcases ih (shiftHist q0 a) t hmem with ⟨a2, l, ha2, he⟩ | ⟨l, he⟩
        · exact Or.inl ⟨a2, l, List.mem_cons_of_mem a ha2, he⟩
        · exact Or.inr ⟨l, he⟩

theorem skel_unique (data : List (List String)) (n : ℕ)
    (hSTOP : ∀ line ∈ data, STOP ∉ line) :
    ∀ t t' : Transition NgSt, t ∈ (ngramSkeleton data n).t_from →
      t' ∈ (ngramSkeleton data n).t_from →
      t.q = t'.q → t.a.1 = t'.a.1 → t = t' := by
  intro t t' ht ht' hq ha
  obtain ⟨line, hline, hmem⟩ := (skel_mem_from data n t).mp ht
  obtain ⟨line', hline', hmem'⟩ := (skel_mem_from data n t').mp ht'
  rcases lineTrs_shape line _ t hmem with ⟨a, l, hal, rfl⟩ | ⟨l, rfl⟩
  · rcases lineTrs_shape line' _ t' hmem' with ⟨a2, l2, hal2, rfl⟩ |
      ⟨l2, rfl⟩
    · have hll : l = l2 := by simpa using hq
      have haa : a = a2 := by simpa using ha
      subst hll
      subst haa
      rfl
    · have haS : a = STOP := by simpa using ha
      exact absurd (haS ▸ hal) (hSTOP line hline)
  · rcases lineTrs_shape line' _ t' hmem' with ⟨a2, l2, hal2, rfl⟩ |
      ⟨l2, rfl⟩
    · have haS : a2 = STOP := by simpa using ha.symm
      exact absurd (haS ▸ hal2) (hSTOP line' hline')
    · have hll : l = l2 := by simpa using hq
      subst hll
      rfl

theorem find_unique {α : Type} {l : List α} {p : α → Bool} {x0 : α}
    (hx : x0 ∈ l) (hpx : p x0 = true)
    (huniq : ∀ x ∈ l, p x = true → x = x0) : l.find? p = some x0 := by
  cases hfind : l.find? p with
  | none =>
      have := List.find?_eq_none.mp hfind x0 hx
      rw [hpx] at this
      exact absurd rfl this
  | some y =>
      rw [huniq y (List.mem_of_find?_eq_some hfind) (List.find?_some hfind)]

theorem walk_follows (data : List (List String)) (n : ℕ)
    (hSTOP : ∀ line ∈ data, STOP ∉ line) :
    ∀ line q0 : List String,
      (∀ t ∈ lineTrs q0 line, t ∈ (ngramSkeleton data n).t_from) →
      walkLine (ngramSkeleton data n) (some (.hist q0)) (line ++ [STOP])
        = some (lineTrs q0 line) := by
  intro line
  induction line with
  | nil =>
      intro q0 hpres
      have hts : (⟨.hist q0, (STOP, STOP), .final⟩ : Transition NgSt)
          ∈ (ngramSkeleton data n).t_from :=
        hpres _ (List.mem_singleton.mpr rfl)
      have hfromMem : (⟨.hist q0, (STOP, STOP), .final⟩ : Transition NgSt)
          ∈ (ngramSkeleton data n).fromList (.hist q0) :=
        FST.mem_fromList.mpr ⟨hts, rfl⟩
      have hfind : ((ngramSkeleton data n).fromList (.hist q0)).find?
          (fun t => t.a.1 = STOP)
          = some ⟨.hist q0, (STOP, STOP), .final⟩ := by
        refine find_unique hfromMem (by simp) ?_
        intro x hxmem hpx
        have hx1 := FST.mem_fromList.mp hxmem
        exact skel_unique data n hSTOP x _ hx1.1 hts hx1.2
          (by simpa using hpx)
      show walkLine (ngramSkeleton data n) (some (.hist q0)) [STOP] = _
      rw [walkLine, show (ngramSkeleton data n).fromListPos
        (some (.hist q0)) = (ngramSkeleton data n).fromList (.hist q0)
        from rfl, hfind]
      rfl
  | cons a rest ih =>
      intro q0 hpres
      have hts : (⟨.hist q0, (a, a), .hist (shiftHist q0 a)⟩ :
          Transition NgSt) ∈ (ngramSkeleton data n).t_from :=
        hpres _ (List.mem_cons_self _ _)
      have hfromMem : (⟨.hist q0, (a, a), .hist (shiftHist q0 a)⟩ :
          Transition NgSt)
          ∈ (ngramSkeleton data n).fromList (.hist q0) :=
        FST.mem_fromList.mpr ⟨hts, rfl⟩
      have hfind : ((ngramSkeleton data n).fromList (.hist q0)).find?
          (fun t => t.a.1 = a)
          = some ⟨.hist q0, (a, a), .hist (shiftHist q0 a)⟩ := by
        refine find_unique hfromMem (by simp) ?_
        intro x hxmem hpx
        have hx1 := FST.mem_fromList.mp hxmem
        exact skel_unique data n hSTOP x _ hx1.1 hts hx1.2
          (by simpa using hpx)
      show walkLine (ngramSkeleton data n) (some (.hist q0))
        (a :: (rest ++ [STOP])) = _
      rw [walkLine, show (ngramSkeleton data n).fromListPos
        (some (.hist q0)) = (ngramSkeleton data n).fromList (.hist q0)
        from rfl, hfind]
      have hrec := ih (shiftHist q0 a)
        (fun t htm => hpres t (List.mem_cons_of_mem _ htm))
      show (walkLine (ngramSkeleton data n)
        (some (.hist (shiftHist q0 a))) (rest ++ [STOP])).map _ = _
      rw [hrec]
      rfl

theorem walkAll_skel (data : List (List String)) (n : ℕ)
    (hSTOP : ∀ line ∈ data, STOP ∉ line) :
    ∀ data' : List (List String),
      (∀ line ∈ data', ∀ t ∈ lineTrs (startHist n) line,
        t ∈ (ngramSkeleton data n).t_from) →
      walkAll (ngramSkeleton data n) data'
        = some (data'.flatMap (fun line => lineTrs (startHist n) line)) := by
  intro data'
  induction data' with
  | nil => intro _; rfl
  | cons line rest ih =>
      intro hpres
      rw [walkAll, skel_start data n,
        walk_follows data n hSTOP line (startHist n)
          (hpres line (List.mem_cons_self _ _))]
      show (walkAll (ngramSkeleton data n) rest).map _ = _
      rw [ih (fun l2 hl2 => hpres l2 (List.mem_cons_of_mem _ hl2))]
      simp [List.flatMap_cons]

theorem count_flatMap {α β : Type} [DecidableEq β] (l : List α)
    (f : α → List β) (x : β) :
    (l.flatMap f).count x = (l.map (fun a => (f a).count x)).sum := by
  induction l with
  | nil => rfl
  | cons a rest ih => simp [List.flatMap_cons, List.count_append, ih]

theorem nat_le_sum_of_mem {l : List ℕ} {x : ℕ} (hx : x ∈ l) : x ≤ l.sum := by
  induction l with
  | nil => cases hx
  | cons y rest ih =>
      rcases List.mem_cons.mp hx with rfl | hmem
      · simpa using Nat.le_add_right x rest.sum
      · simp only [List.sum_cons]
        exact le_trans (ih hmem) (Nat.le_add_left _ _)

theorem list_sum_ge_of_mem {α : Type} (l : List α) (f : α → ℚ)
    (hpos : ∀ y ∈ l, 0 ≤ f y) {x : α} (hx : x ∈ l) :
    f x ≤ (l.map f).sum := by
  induction l with
  | nil => cases hx
  | cons y rest ih =>
      have hrest : (0 : ℚ) ≤ (rest.map f).sum := by
        refine List.sum_nonneg ?_
        intro v hv
        obtain ⟨z, hz, rfl⟩ := List.mem_map.mp hv
        exact hpos z (List.mem_cons_of_mem y hz)
      rcases List.mem_cons.mp hx with rfl | hmem
      · simp only [List.map_cons, List.sum_cons]
        linarith
      · simp only [List.map_cons, List.sum_cons]
        have h1 := ih (fun v hv => hpos v (List.mem_cons_of_mem y hv)) hmem
        have h2 := hpos y (List.mem_cons_self y rest)
        linarith

theorem list_sum_div {α : Type} (l : List α) (f : α → ℚ) (z : ℚ) :
    (l.map (fun x => f x / z)).sum = (l.map f).sum / z := by
  induction l with
  | nil => simp
  | cons y rest ih => simp [ih, add_div]

theorem ngram_train_sums_to_one (data : List (List String)) (n : ℕ)
    (hSTOP : ∀ line ∈ data, STOP ∉ line) :
    ∃ m', (ngramSkeleton data n).train_joint data = .ok m' ∧
      ∀ q ∈ (ngramSkeleton data n).states,
        (ngramSkeleton data n).fromList q ≠ [] →
        (((ngramSkeleton data n).fromList q).map m'.w).sum = 1 := by
  have hpres : ∀ line ∈ data, ∀ t ∈ lineTrs (startHist n) line,
      t ∈ (ngramSkeleton data n).t_from :=
    fun line hl t ht => (skel_mem_from data n t).mpr ⟨line, hl, ht⟩
  have hwalk := walkAll_skel data n hSTOP data hpres
  have hcnt : ∀ t, (((data.flatMap (fun line =>
      lineTrs (startHist n) line)).count t : ℕ) : ℚ)
      = (ngramSkeleton data n).w t := by
    intro t
    rw [skel_w data n t]
    exact_mod_cast congrArg Nat.cast
      (count_flatMap data (fun line => lineTrs (startHist n) line) t)
  have hwpos : ∀ t, (0 : ℚ) ≤ (ngramSkeleton data n).w t := by
    intro t
    rw [skel_w data n t]
    exact_mod_cast Nat.zero_le _
  have hge1 : ∀ t ∈ (ngramSkeleton data n).t_from,
      1 ≤ (data.flatMap (fun line => lineTrs (startHist n) line)).count t
      := by
    intro t ht
    obtain ⟨line, hl, hmem⟩ := (skel_mem_from data n t).mp ht
    have h1 : 0 < (lineTrs (startHist n) line).count t :=
      List.count_pos_iff.mpr hmem
    have h2 : (lineTrs (startHist n) line).count t
        ∈ data.map (fun line => (lineTrs (startHist n) line).count t) :=
      List.mem_map.mpr ⟨line, hl, rfl⟩
    rw [count_flatMap]
    exact le_trans h1 (nat_le_sum_of_mem h2)
  have hzpos : ∀ q, (ngramSkeleton data n).fromList q ≠ [] →
      (((ngramSkeleton data n).fromList q).map
        (ngramSkeleton data n).w).sum ≠ 0 := by
    intro q hne
    obtain ⟨t, ht⟩ := List.exists_mem_of_ne_nil _ hne
    have htf : t ∈ (ngramSkeleton data n).t_from :=
      (FST.mem_fromList.mp ht).1
    have h1 : (1 : ℚ) ≤ (ngramSkeleton data n).w t := by
      rw [← hcnt]
      exact_mod_cast hge1 t htf
    have hle := list_sum_ge_of_mem ((ngramSkeleton data n).fromList q)
      (ngramSkeleton data n).w (fun y _ => hwpos y) ht
    intro h0
    rw [h0] at hle
    linarith
  have hnd := skel_states_nodup data n
  have hndf := skel_from_nodup data n
  cases hres : (ngramSkeleton data n).train_joint data with
  | errNotInLanguage m2 =>
      exfalso
      unfold FST.train_joint at hres
      rw [hwalk] at hres
      exact renormAll_ne_notInLanguage hres
  | errDivByZero m2 =>
      exfalso
      have hdiv : ((ngramSkeleton data n).train_joint data).isDivByZero
          = true := by
        rw [hres]
        rfl
      unfold FST.train_joint at hdiv
      rw [hwalk] at hdiv
      obtain ⟨q, _, hne, hz⟩ := (renormAll_isDiv_char hnd hndf).mp hdiv
      exact hzpos q hne hz
  | ok m2 =>
      refine ⟨m2, rfl, ?_⟩
      intro q hq hne
      have hformula := train_joint_ok_weight_formula hnd hndf hwalk hres
        q hq
      have hcongr : ((ngramSkeleton data n).fromList q).map m2.w
          = ((ngramSkeleton data n).fromList q).map (fun t =>
            (((data.flatMap (fun line =>
              lineTrs (startHist n) line)).count t : ℕ) : ℚ)
            / (((ngramSkeleton data n).fromList q).map
                (ngramSkeleton data n).w).sum) :=
        List.map_congr_left (fun t ht => hformula t ht)
      rw [hcongr, list_sum_div]
      have hnum : ((ngramSkeleton data n).fromList q).map (fun t =>
          (((data.flatMap (fun line =>
            lineTrs (startHist n) line)).count t : ℕ) : ℚ))
          = ((ngramSkeleton data n).fromList q).map
            (ngramSkeleton data n).w :=
        List.map_congr_left (fun t _ => hcnt t)
      rw [hnum]
      exact div_self (hzpos q hne)

/-- C2 (amended).  First conjunct: on normal return, `train_joint` sets
every outgoing weight of every state to `count(t) / z` where `z` is the sum
of the PRE-CALL weights of that state's outgoing transitions — NOT the sum
of the counts (the code computes `z = sum(transitions_from[q].values())`
before reweighting).  Second conjunct: when the corpus trained on is the
SAME corpus the n-gram skeleton was built from (which is what `make_ngram`
does) and no line contains `STOP`, training returns normally and every
state with an outgoing transition — equivalently, with at least one
observed transition, since construction and walk counts coincide — has
outgoing weights summing to exactly 1. -/
theorem train_joint_weight_division {St : Type} [DecidableEq St] :
    (∀ (m : FST St) (data : List (List String))
      (used : List (Transition St)) (m' : FST St),
      m.states.Nodup → m.t_from.Nodup → walkAll m data = some used →
      FST.train_joint m data = .ok m' →
      ∀ q ∈ m.states, ∀ t ∈ m.fromList q,
        m'.w t = ((used.count t : ℕ) : ℚ)
          / ((m.fromList q).map m.w).sum) ∧
    (∀ (data : List (List String)) (n : ℕ), data ≠ [] →
      (∀ line ∈ data, STOP ∉ line) →
      ∃ m', (ngramSkeleton data n).train_joint data = .ok m' ∧
        ∀ q ∈ (ngramSkeleton data n).states,
          (ngramSkeleton data n).fromList q ≠ [] →
          (((ngramSkeleton data n).fromList q).map m'.w).sum = 1) :=
  ⟨fun _ _ _ _ hnd hndf hw hok =>
    train_joint_ok_weight_formula hnd hndf hw hok,
   fun data n _ hSTOP => ngram_train_sums_to_one data n hSTOP⟩

/-- C2 witness: the amended theorem applied at a concrete corpus and
order 2, all hypotheses discharged. -/
theorem train_joint_weight_division_witness :
    ([["a"]] ≠ ([] : List (List String))) ∧
    (∀ line ∈ [["a"]], STOP ∉ line) ∧
    (∃ m', (ngramSkeleton [["a"]] 2).train_joint [["a"]] = .ok m' ∧
      ∀ q ∈ (ngramSkeleton [["a"]] 2).states,
        (ngramSkeleton [["a"]] 2).fromList q ≠ [] →
        (((ngramSkeleton [["a"]] 2).fromList q).map m'.w).sum = 1) :=
  ⟨by decide, by decide,
   (@train_joint_weight_division ℕ instDecidableEqNat).2 [["a"]] 2 (by decide)
     (by decide)⟩
